import Mathlib

/-!
Verification of the kastenwesen container-management tool.

This file gives a shallow embedding, in Lean 4, of the algorithmic core of
the kastenwesen repository (`kastenwesen.py`, `cron_status.py`,
`pidfilemanager.py`) and proves or refutes the frozen claims about it.

Modelling conventions:
* Python container objects are identified by an object id (`Nat`); Python
  equality (`in`, `==` on objects with no custom `__eq__`) is object
  identity, modelled as `Nat` equality.
* Python dictionaries are association lists looked up with `List.lookup`.
* `while` loops are embedded with an explicit fuel parameter; claims about
  loop results take a hypothesis that the fuel is large enough, and we prove
  the loop has stabilised by then.
* Time stamps are rationals (seconds since the Unix epoch); the Docker
  pseudo-date `0001-01-01T00:00:00Z` (which `DockerDatetime` maps to `None`)
  is modelled as `Option.none`.
* Fallible code (Python `assert` / `raise`) is modelled with `Except`.
-/

set_option autoImplicit false

namespace Kastenwesen

/-- The four container status values of `kastenwesen.py` (`class ContainerStatus`). -/
inductive ContainerStatus where
  | OKAY
  | FAILED
  | STARTING
  | MISSING
deriving DecidableEq, Repr

/--
Embedding of `AbstractContainer.get_status` (kastenwesen.py lines 367-392).
Inputs are the container attributes and probe results the method reads:
`is_built`, `only_build`, the list of individual test outcomes (the method
uses `self.test(...)`, the conjunction, and the emptiness and length of
`self.tests`), `is_running()`, `time_running()` and `startup_gracetime`.
-/
def get_status (is_built only_build : Bool) (tests : List Bool)
    (is_running : Bool) (time_running startup_gracetime : ℚ) :
    ContainerStatus × String :=
  if !is_built then
    (ContainerStatus.MISSING, "image is missing on the local system")
  else if only_build && tests.isEmpty then
    (ContainerStatus.OKAY, "(only build)")
  else if tests.all id then
    if is_running || only_build then
      let running := if is_running then "running, " else ""
      (ContainerStatus.OKAY,
        running ++ toString tests.length ++ "/" ++ toString tests.length ++ " tests ok")
    else if !tests.isEmpty then
      (ContainerStatus.FAILED, "stopped, but tests succeeded. Check your tests!")
    else
      (ContainerStatus.FAILED, "stopped")
  else
    if only_build then
      (ContainerStatus.FAILED, "tests failed")
    else if is_running then
      if time_running < startup_gracetime then
        (ContainerStatus.STARTING, "starting up... Tests not yet OK")
      else
        (ContainerStatus.FAILED, "running, but tests failed")
    else
      (ContainerStatus.FAILED, "stopped")

/--
C3: for a built, not only-build, running container whose test aggregate
fails, `get_status` returns STARTING strictly below the startup grace time
and FAILED at the grace time or above (the boundary case included).
-/
theorem claim3_starting_grace_boundary (tests : List Bool)
    (time_running startup_gracetime : ℚ) (hfail : tests.all id = false) :
    (time_running < startup_gracetime →
      (get_status true false tests true time_running startup_gracetime).1 =
        ContainerStatus.STARTING) ∧
    (startup_gracetime ≤ time_running →
      (get_status true false tests true time_running startup_gracetime).1 =
        ContainerStatus.FAILED) := by
  constructor
  · intro hlt
    simp [get_status, hfail, hlt]
  · intro hge
    have hnlt : ¬ time_running < startup_gracetime := not_lt.mpr hge
    simp [get_status, hfail, hnlt]

/-- Witness for C3 at a concrete input: one failing test, 1 second of runtime, 5 second grace time. -/
theorem claim3_witness :
    ([false].all id = false) ∧
    ((1 : ℚ) < 5 →
      (get_status true false [false] true 1 5).1 = ContainerStatus.STARTING) ∧
    ((get_status true false [false] true 7 5).1 = ContainerStatus.FAILED) :=
  ⟨by decide,
   fun h => (claim3_starting_grace_boundary [false] 1 5 (by decide)).1 h,
   (claim3_starting_grace_boundary [false] 7 5 (by decide)).2 (by norm_num)⟩

/-!
### Flapping / change detector (`cron_status.py`)
-/

/--
Cron-side container status: `cron_status.py` extends the kastenwesen
`ContainerStatus` with FLAPPING and UNKNOWN.
-/
inductive CronStatus where
  | OKAY
  | FAILED
  | STARTING
  | MISSING
  | FLAPPING
  | UNKNOWN
deriving DecidableEq, Repr

/--
One status snapshot: the mapping from container name to (status, message).
A Python dict is modelled as an association list in insertion order with
unique keys; `name in entry` and `entry[name]` become `List.lookup`.
-/
abbrev Snapshot := List (String × CronStatus × String)

/--
The raw newest-first status sequence of one container over the history
window: the loop in `detect_flapping_and_changes` (cron_status.py lines
193-202) appends `entry[container_name][0]` for every snapshot that has
the container.
-/
def container_status_history (name : String) (hist : List Snapshot) :
    List CronStatus :=
  hist.filterMap (fun snap => (snap.lookup name).map Prod.fst)

/--
The same sequence with every STARTING entry stripped out (the `continue`
in the same loop, cron_status.py lines 200-202).
-/
def container_status_history_filtered (name : String) (hist : List Snapshot) :
    List CronStatus :=
  (container_status_history name hist).filter
    (fun s => !(s == CronStatus.STARTING))

/--
The `changed` computation of `detect_flapping_and_changes`
(cron_status.py lines 210-217): with strictly more than two filtered
entries, compare the two newest filtered entries; otherwise report a
change exactly for a current raw status of FAILED or MISSING.
The `match` fallbacks are unreachable: the first needs length > 2 and the
second a container present in the newest snapshot.
-/
def detect_changed (raw filtered : List CronStatus) : Bool :=
  if 2 < filtered.length then
    match filtered with
    | a :: b :: _ => !(a == b)
    | _ => false
  else
    match raw with
    | a :: _ => a == CronStatus.FAILED || a == CronStatus.MISSING
    | [] => false

/-- Output record of the detector (`ExtendedStatusReport` namedtuple). -/
structure ExtendedStatusReport where
  container_name : String
  current_status : CronStatus
  overall_status : CronStatus
  current_msg : String
  changed : Bool
deriving DecidableEq, Repr

/--
The per-container body of the loop in `detect_flapping_and_changes`:
`overall_status = container_status_history[0]` and the `changed` formula.
`raw` is nonempty whenever `item` is an entry of the newest snapshot, so
the `headD` fallback is never taken there.
-/
def detect_report (hist : List Snapshot) (item : String × CronStatus × String) :
    ExtendedStatusReport :=
  let raw := container_status_history item.1 hist
  let filtered := container_status_history_filtered item.1 hist
  { container_name := item.1
    current_status := item.2.1
    overall_status := raw.headD item.2.1
    current_msg := item.2.2
    changed := detect_changed raw filtered }

/--
Embedding of `detect_flapping_and_changes` (cron_status.py lines 180-226):
fold over the items of the newest snapshot, or-ing the per-container
`changed` flags and collecting the reports in order. On an empty history
the Python code would fail on `status_history_list[0]`; `main` always
inserts the fresh snapshot first, so that case is unreachable and mapped
to the neutral result.
-/
def detect_flapping_and_changes (hist : List Snapshot) :
    Bool × List ExtendedStatusReport :=
  match hist with
  | [] => (false, [])
  | newest :: _ =>
    newest.foldl
      (fun acc item =>
        let rep := detect_report hist item
        (acc.1 || rep.changed, acc.2 ++ [rep]))
      (false, [])

theorem lookup_isSome_of_mem {α β : Type} [BEq α] [LawfulBEq α]
    (l : List (α × β)) (p : α × β) (h : p ∈ l) : (l.lookup p.1).isSome := by
  induction l with
  | nil => cases h
  | cons q t ih =>
    rcases q with ⟨k, v⟩
    by_cases hk : p.1 == k
    · simp [List.lookup, hk]
    · have hk2 : (p.1 == k) = false := by
        simpa using hk
      rcases List.mem_cons.mp h with h1 | h1
      · subst h1
        simp at hk2
      · have := ih h1
        simpa [List.lookup, hk2] using this

theorem detect_foldl_shape (hist : List Snapshot)
    (items : List (String × CronStatus × String)) :
    ∀ (b : Bool) (acc : List ExtendedStatusReport),
      items.foldl
        (fun acc item =>
          let rep := detect_report hist item
          (acc.1 || rep.changed, acc.2 ++ [rep]))
        (b, acc) =
      (b || (items.map (detect_report hist)).any (·.changed),
        acc ++ items.map (detect_report hist)) := by
  induction items with
  | nil => intro b acc; simp
  | cons it t ih =>
    intro b acc
    simp only [List.foldl_cons, List.map_cons, List.any_cons, ih]
    simp [Bool.or_assoc]

/--
C2: for every container present in the newest snapshot,
`detect_flapping_and_changes` emits one report per entry (in order), and
the `changed` flag of that report is: with R the raw newest-first status
sequence and F its STARTING-free filtering, `F[0] != F[1]` when F has
strictly more than two entries, and otherwise `R[0] ∈ {FAILED, MISSING}`.
-/
theorem claim2_changed_formula (newest : Snapshot) (rest : List Snapshot)
    (item : String × CronStatus × String) (hmem : item ∈ newest) :
    ((detect_flapping_and_changes (newest :: rest)).2 =
        newest.map (detect_report (newest :: rest))) ∧
    ((detect_report (newest :: rest) item).changed =
      (if 2 < (container_status_history_filtered item.1 (newest :: rest)).length then
        decide ((container_status_history_filtered item.1 (newest :: rest)).get? 0 ≠
                (container_status_history_filtered item.1 (newest :: rest)).get? 1)
      else
        decide ((container_status_history item.1 (newest :: rest)).head? =
                  some CronStatus.FAILED ∨
                (container_status_history item.1 (newest :: rest)).head? =
                  some CronStatus.MISSING))) := by
  constructor
  · simp [detect_flapping_and_changes, detect_foldl_shape]
  · have hsome : ((newest.lookup item.1).map Prod.fst).isSome := by
      have := lookup_isSome_of_mem newest item hmem
      simpa using this
    have hR : ∃ a t, container_status_history item.1 (newest :: rest) = a :: t := by
      rcases Option.isSome_iff_exists.mp hsome with ⟨a, ha⟩
      refine ⟨a, container_status_history item.1 rest, ?_⟩
      simp [container_status_history, List.filterMap_cons, ha]
    rcases hR with ⟨a, t, hR⟩
    simp only [detect_report, detect_changed]
    by_cases hlen :
        2 < (container_status_history_filtered item.1 (newest :: rest)).length
    · rcases hF : container_status_history_filtered item.1 (newest :: rest) with
        _ | ⟨x, _ | ⟨y, f⟩⟩
      · rw [hF] at hlen; simp at hlen
      · rw [hF] at hlen; simp at hlen
      · rw [hF] at hlen
        simp only [hF, hlen, if_true]
        cases hxy : x == y
        · have : x ≠ y := by
            intro h; subst h; simp at hxy
          simp [this]
        · have : x = y := by
            exact eq_of_beq hxy
          simp [this]
    · simp only [hlen, if_false, hR]
      cases a <;> simp

/-- Witness for C2 at a concrete history: one container FAILED in the only snapshot. -/
theorem claim2_witness :
    (("web", (CronStatus.FAILED, "down")) ∈
        [("web", (CronStatus.FAILED, "down"))]) ∧
    (((detect_flapping_and_changes [[("web", (CronStatus.FAILED, "down"))]]).2 =
        [[("web", (CronStatus.FAILED, "down"))]].head!.map
          (detect_report [[("web", (CronStatus.FAILED, "down"))]])) ∧
      ((detect_report [[("web", (CronStatus.FAILED, "down"))]]
          ("web", (CronStatus.FAILED, "down"))).changed = true)) := by
  have h := claim2_changed_formula [("web", (CronStatus.FAILED, "down"))] []
    ("web", (CronStatus.FAILED, "down")) (by decide)
  refine ⟨by decide, h.1, ?_⟩
  rw [h.2]
  decide

/-!
### Lock manager (`pidfilemanager.py`)
-/

/--
The OS process table: pid to full command line, the information behind
`/proc/<pid>/cmdline`. Opening `/proc/p/cmdline` succeeds exactly for the
pids in the table; a negative pid (such as the -1 sentinel) never has an
entry, matching Linux where the proc entry of pid -1 does not exist.
-/
structure ProcTable where
  table : List (Nat × String)

/-- Reading `/proc/<pid>/cmdline`: `none` models the IOError on a missing process. -/
def proc_cmdline (os : ProcTable) (pid : Int) : Option String :=
  match pid with
  | Int.ofNat n => os.table.lookup n
  | Int.negSucc _ => none

/--
The state a `PidFileManager` holds after `__init__`: the PID read from the
lock file and the stored command line. `old_cmdline = none` models the
attribute being left unset (which happens only when the lock file parses
to the literal -1; `another_instance_is_running` then returns before
touching it because the proc entry of pid -1 never opens).
-/
structure PidFileState where
  old_pid : Int
  old_cmdline : Option String
deriving DecidableEq, Repr

/--
Embedding of `PidFileManager.__init__` (pidfilemanager.py lines 53-84).
`parsed_pid` is the outcome of `int(self.lockfile.read())`, with `none`
for the ValueError on contents that do not parse as an integer;
`cmdline_file` is the contents of the sibling cmdline file (`none` when
that file cannot be opened). A parse failure records pid -1 with command
line `<unknown>`; a parsed pid other than -1 requires the cmdline file.
-/
def pidfile_init (parsed_pid : Option Int) (cmdline_file : Option String) :
    Except String PidFileState :=
  match parsed_pid with
  | none => Except.ok { old_pid := -1, old_cmdline := some "<unknown>" }
  | some pid =>
    if pid ≠ -1 then
      match cmdline_file with
      | some c => Except.ok { old_pid := pid, old_cmdline := some c }
      | none => Except.error "Cannot open cmdline lockfile"
    else
      Except.ok { old_pid := -1, old_cmdline := none }

/--
Embedding of `PidFileManager.another_instance_is_running`
(pidfilemanager.py lines 86-97): read the recorded PID's current command
line from `/proc`; an absent process (IOError) means not running,
otherwise compare with the stored command line.
-/
def another_instance_is_running (os : ProcTable) (st : PidFileState) : Bool :=
  match proc_cmdline os st.old_pid with
  | none => false
  | some cmdline =>
    match st.old_cmdline with
    | some old => cmdline == old
    | none => false

/--
Result of `PidFileManager.lock`: either the lock is acquired and the two
record files are overwritten with the given contents, or `AlreadyRunning`
is raised, or the flock fails and a plain Exception is raised.
-/
inductive LockResult where
  | acquired (pid_record : String) (cmdline_record : String)
  | already_running
  | flock_failed
deriving DecidableEq, Repr

/--
Embedding of `PidFileManager.lock` (pidfilemanager.py lines 108-130):
raise `AlreadyRunning` if the recorded instance is still alive; otherwise
take the non-blocking exclusive flock (`flock_free` says whether it can be
taken) and overwrite the PID record with `str(os.getpid())` and the
cmdline record with the contents of `/proc/self/cmdline`.
-/
def pidfile_lock (os : ProcTable) (flock_free : Bool) (st : PidFileState)
    (self_pid : Nat) : LockResult :=
  if another_instance_is_running os st then
    LockResult.already_running
  else if flock_free then
    LockResult.acquired (toString self_pid) ((os.table.lookup self_pid).getD "")
  else
    LockResult.flock_failed

/--
C4: `lock()` raises AlreadyRunning exactly when the recorded PID is a live
process whose command line equals the stored one; otherwise (dead PID, or
the PID reused with a different command line) the lock is treated as free
and, with the flock available, `lock()` succeeds and overwrites the
records with the current process identity.
-/
theorem claim4_lock_already_running (os : ProcTable) (flock_free : Bool)
    (st : PidFileState) (self_pid : Nat) (self_cmdline : String)
    (hself : os.table.lookup self_pid = some self_cmdline) :
    (pidfile_lock os flock_free st self_pid = LockResult.already_running ↔
      (∃ c, proc_cmdline os st.old_pid = some c ∧ st.old_cmdline = some c)) ∧
    ((¬ ∃ c, proc_cmdline os st.old_pid = some c ∧ st.old_cmdline = some c) →
      flock_free = true →
      pidfile_lock os flock_free st self_pid =
        LockResult.acquired (toString self_pid) self_cmdline) := by
  have hrun : another_instance_is_running os st = true ↔
      ∃ c, proc_cmdline os st.old_pid = some c ∧ st.old_cmdline = some c := by
    unfold another_instance_is_running
    rcases hp : proc_cmdline os st.old_pid with _ | c
    · simp
    · rcases ho : st.old_cmdline with _ | old
      · simp
      · simp
        constructor
        · intro h; exact h.symm
        · intro h; exact h.symm
  constructor
  · constructor
    · intro h
      apply hrun.mp
      by_contra hfalse
      have hb : another_instance_is_running os st = false := by
        cases hv : another_instance_is_running os st
        · rfl
        · exact absurd hv hfalse
      unfold pidfile_lock at h
      rw [hb] at h
      by_cases hf : flock_free = true <;> simp [hf] at h
    · intro h
      unfold pidfile_lock
      rw [hrun.mpr h]
      simp
  · intro hnot hf
    have hb : another_instance_is_running os st = false := by
      cases hv : another_instance_is_running os st
      · rfl
      · exact absurd (hrun.mp hv) hnot
    unfold pidfile_lock
    rw [hb, hf]
    simp [hself]

/-- Witness for C4: pid 5 was reused by a process with a different command line, so process 7 takes the lock. -/
theorem claim4_witness :
    ((ProcTable.mk [(5, "other"), (7, "kastenwesen rebuild")]).table.lookup 7 =
      some "kastenwesen rebuild") ∧
    (pidfile_lock (ProcTable.mk [(5, "other"), (7, "kastenwesen rebuild")]) true
        { old_pid := 5, old_cmdline := some "kastenwesen stop" } 7 =
      LockResult.acquired "7" "kastenwesen rebuild") := by
  have h := claim4_lock_already_running
    (ProcTable.mk [(5, "other"), (7, "kastenwesen rebuild")]) true
    { old_pid := 5, old_cmdline := some "kastenwesen stop" } 7
    "kastenwesen rebuild" (by decide)
  refine ⟨by decide, h.2 ?_ rfl⟩
  rintro ⟨c, hc, hold⟩
  cases hold
  revert hc
  decide

/--
C10: a lock file whose contents do not parse as an integer yields the
recorded state pid -1 / command line `<unknown>`; `another_instance_is_running`
is then false (pid -1 has no proc entry), and `lock()` therefore proceeds to acquire.
-/
theorem claim10_garbled_lockfile (os : ProcTable) (parsed_pid : Option Int)
    (cmdline_file : Option String) (hparse : parsed_pid = none)
    (self_pid : Nat) (self_cmdline : String)
    (hself : os.table.lookup self_pid = some self_cmdline) :
    (pidfile_init parsed_pid cmdline_file =
      Except.ok { old_pid := -1, old_cmdline := some "<unknown>" }) ∧
    (another_instance_is_running os
        { old_pid := -1, old_cmdline := some "<unknown>" } = false) ∧
    (pidfile_lock os true { old_pid := -1, old_cmdline := some "<unknown>" }
        self_pid =
      LockResult.acquired (toString self_pid) self_cmdline) := by
  have hneg : proc_cmdline os (-1) = none := rfl
  have hrun : another_instance_is_running os
      { old_pid := -1, old_cmdline := some "<unknown>" } = false := by
    unfold another_instance_is_running
    rw [show ({ old_pid := -1, old_cmdline := some "<unknown>" } :
      PidFileState).old_pid = -1 from rfl, hneg]
  refine ⟨?_, hrun, ?_⟩
  · unfold pidfile_init
    rw [hparse]
  · unfold pidfile_lock
    rw [hrun]
    simp [hself]

/-- Witness for C10 with an unparseable lock file (the parse yields no PID). -/
theorem claim10_witness :
    ((none : Option Int) = none) ∧
    ((ProcTable.mk [(9, "me")]).table.lookup 9 = some "me") ∧
    (pidfile_init none none =
      Except.ok { old_pid := -1, old_cmdline := some "<unknown>" }) ∧
    (pidfile_lock (ProcTable.mk [(9, "me")]) true
        { old_pid := -1, old_cmdline := some "<unknown>" } 9 =
      LockResult.acquired "9" "me") := by
  have h := claim10_garbled_lockfile (ProcTable.mk [(9, "me")]) none none
    rfl 9 "me" (by decide)
  exact ⟨rfl, by decide, h.1, h.2.2⟩

/-!
### Status exit contract (`print_status_and_exit`)
-/

/-- One entry of the list built by `get_status` (the `StatusReport` namedtuple). -/
structure StatusReport where
  container_name : String
  status : ContainerStatus
  msg : String
deriving DecidableEq, Repr

/--
Embedding of `print_status_and_exit` (kastenwesen.py lines 1065-1121).
The status fetch either succeeds with a report list or raises a Docker
APIError (`Except.error ()`); the function either exits with a code
(`Except.ok code`) or re-raises (`Except.error ()`). Printing has no
semantic effect and is omitted.
-/
def print_status_and_exit (fetch : Except Unit (List StatusReport))
    (other_instance_running : Bool) : Except Unit Nat :=
  match fetch with
  | Except.error e => if other_instance_running then Except.ok 42 else Except.error e
  | Except.ok reports =>
    let failed_containers := reports.any (fun r =>
      r.status == ContainerStatus.FAILED || r.status == ContainerStatus.MISSING)
    if failed_containers then
      if other_instance_running then Except.ok 42 else Except.ok 1
    else
      Except.ok 0

/--
C5: exit code 0 when every queried container is OKAY or STARTING; exit
code 1 when some container is FAILED or MISSING and no other instance is
detected; exit code 42 when a FAILED/MISSING container, or an APIError
during the status fetch, coincides with a detected other instance.
-/
theorem claim5_exit_codes (fetch : Except Unit (List StatusReport))
    (other_instance_running : Bool) :
    (∀ reports, fetch = Except.ok reports →
      ((∀ r ∈ reports, r.status = ContainerStatus.OKAY ∨
          r.status = ContainerStatus.STARTING) →
        print_status_and_exit fetch other_instance_running = Except.ok 0) ∧
      ((∃ r ∈ reports, r.status = ContainerStatus.FAILED ∨
          r.status = ContainerStatus.MISSING) →
        other_instance_running = false →
        print_status_and_exit fetch other_instance_running = Except.ok 1) ∧
      ((∃ r ∈ reports, r.status = ContainerStatus.FAILED ∨
          r.status = ContainerStatus.MISSING) →
        other_instance_running = true →
        print_status_and_exit fetch other_instance_running = Except.ok 42)) ∧
    (∀ e, fetch = Except.error e → other_instance_running = true →
      print_status_and_exit fetch other_instance_running = Except.ok 42) := by
  constructor
  · intro reports hfetch
    subst hfetch
    have hany : (∃ r ∈ reports, r.status = ContainerStatus.FAILED ∨
        r.status = ContainerStatus.MISSING) →
        reports.any (fun r => r.status == ContainerStatus.FAILED ||
          r.status == ContainerStatus.MISSING) = true := by
      rintro ⟨r, hr, hst | hst⟩ <;>
        exact List.any_eq_true.mpr ⟨r, hr, by rw [hst]; rfl⟩
    refine ⟨?_, ?_, ?_⟩
    · intro hok
      have hnone : reports.any (fun r => r.status == ContainerStatus.FAILED ||
          r.status == ContainerStatus.MISSING) = false := by
        rw [List.any_eq_false]
        intro r hr
        rcases hok r hr with h | h <;> rw [h] <;> decide
      simp [print_status_and_exit, hnone]
    · intro hex hother
      simp [print_status_and_exit, hany hex, hother]
    · intro hex hother
      simp [print_status_and_exit, hany hex, hother]
  · intro e hfetch hother
    subst hfetch
    simp [print_status_and_exit, hother]

/-- Witness for C5: one FAILED container while another instance is detected exits with 42. -/
theorem claim5_witness :
    print_status_and_exit
      (Except.ok [(⟨"web", ContainerStatus.FAILED, "stopped"⟩ : StatusReport)])
      true = Except.ok 42 :=
  ((claim5_exit_codes
      (Except.ok [(⟨"web", ContainerStatus.FAILED, "stopped"⟩ : StatusReport)])
      true).1
    [(⟨"web", ContainerStatus.FAILED, "stopped"⟩ : StatusReport)] rfl).2.2
    ⟨_, List.mem_singleton.mpr rfl, Or.inl rfl⟩ rfl

/-!
### Retention / cleanup engine (`cleanup_containers`, `cleanup_images`, `main`)
-/

/-- Unix timestamp (seconds) of 2002-01-01 00:00:00 UTC, the sanity bound asserted in `cleanup_containers`. -/
def epoch2002 : ℚ := 1009843200

/--
What the cleanup code reads about one Docker container: its id, the
`State.Running` and `State.FinishedAt` fields of `inspect_container`, the
`Created` field of the `containers()` listing and the `Image` id from
`inspect_container`. `finished_at = none` models the pseudo-date
`0001-01-01T00:00:00Z`, which `DockerDatetime` turns into a falsy value.
-/
structure ContainerRecord where
  id : String
  running : Bool
  finished_at : Option ℚ
  created : ℚ
  image : String
deriving DecidableEq, Repr

/-- What the cleanup code reads about one Docker image. -/
structure ImageRecord where
  id : String
  repo_tags : List String
  created : ℚ
deriving DecidableEq, Repr

/--
The Docker engine state a cleanup run queries: all containers, all
images, the dangling-image listing, the `running_container_id()` values
recorded for the configured containers (entries whose id file is missing
read as Python `False` and can never match a string id, so they are
dropped), and the current time.
-/
structure DockerState where
  containers : List ContainerRecord
  images : List ImageRecord
  dangling_images : List ImageRecord
  config_container_ids : List String
  now : ℚ
deriving Repr

/--
The tail of one `cleanup_containers` loop iteration (kastenwesen.py lines
998-1007), reached after the finish-time checks: the last known instance
of a configured container is never removed; otherwise the id joins the
removal list and, outside simulate mode, `docker rm` runs.
-/
def cleanup_remove_step (config_ids : List String) (simulate : Bool)
    (c : ContainerRecord) (removed cmds : List String) :
    List String × List String :=
  if c.id ∈ config_ids then
    (removed, cmds)
  else
    (removed ++ [c.id], if simulate then cmds else cmds ++ ["docker rm " ++ c.id])

/--
The loop of `cleanup_containers` (kastenwesen.py lines 978-1007):
skip running containers; when a finish time exists, assert it is after
2002, skip the container when it is younger than `min_age_days` days, and
assert creation preceded finishing; then fall through to the removal
step. A missing finish time falls through directly. Accumulates the
removed ids and the executed `docker rm` commands.
-/
def cleanup_containers_go (config_ids : List String) (now : ℚ)
    (min_age_days : ℕ) (simulate : Bool) :
    List ContainerRecord → List String → List String →
    Except String (List String × List String)
  | [], removed, cmds => Except.ok (removed, cmds)
  | c :: rest, removed, cmds =>
    if c.running then
      cleanup_containers_go config_ids now min_age_days simulate rest removed cmds
    else
      match c.finished_at with
      | some f =>
        if epoch2002 < f then
          if now - f < 86400 * (min_age_days : ℚ) then
            cleanup_containers_go config_ids now min_age_days simulate rest removed cmds
          else if c.created ≤ f then
            let acc := cleanup_remove_step config_ids simulate c removed cmds
            cleanup_containers_go config_ids now min_age_days simulate rest acc.1 acc.2
          else
            Except.error "Container creation time is after the time it finished"
        else
          Except.error "assertion failed: finish time not after 2002-01-01"
      | none =>
        let acc := cleanup_remove_step config_ids simulate c removed cmds
        cleanup_containers_go config_ids now min_age_days simulate rest acc.1 acc.2

/-- Embedding of `cleanup_containers` (kastenwesen.py lines 967-1008). -/
def cleanup_containers (st : DockerState) (min_age_days : ℕ) (simulate : Bool) :
    Except String (List String × List String) :=
  cleanup_containers_go st.config_container_ids st.now min_age_days simulate
    st.containers [] []

/-- Effect of the real `docker rm` calls on the engine state: the removed containers disappear from the listing. -/
def remove_containers (st : DockerState) (ids : List String) : DockerState :=
  { st with containers := st.containers.filter (fun c => decide (c.id ∉ ids)) }

/--
The used-image collection of `cleanup_images` (kastenwesen.py lines
1021-1027): for every container, assert its image id exists in the image
listing, then record the image as used unless the container is in the
simulated-deleted list.
-/
def used_image_ids_go (images : List ImageRecord)
    (simulated_deleted : List String) :
    List ContainerRecord → List String → Except String (List String)
  | [], acc => Except.ok acc
  | c :: rest, acc =>
    if c.image ∈ images.map (fun i => i.id) then
      if c.id ∈ simulated_deleted then
        used_image_ids_go images simulated_deleted rest acc
      else
        used_image_ids_go images simulated_deleted rest (acc ++ [c.image])
    else
      Except.error "Image does not exist, but is used by container"

/--
The dangling-image loop of `cleanup_images` (kastenwesen.py lines
1029-1048): raise on a dangling image that is not the untagged sentinel,
skip used and too-young images, otherwise record the candidate and,
outside simulate mode, run `docker rmi`.
-/
def cleanup_images_go (used : List String) (now : ℚ) (min_age_days : ℕ)
    (simulate : Bool) :
    List ImageRecord → List String → List String →
    Except String (List String × List String)
  | [], cands, cmds => Except.ok (cands, cmds)
  | img :: rest, cands, cmds =>
    if img.repo_tags ≠ ["<none>:<none>"] then
      Except.error "this should not happen, as we filtered for dangling images only"
    else if img.id ∈ used then
      cleanup_images_go used now min_age_days simulate rest cands cmds
    else if now - 86400 * (min_age_days : ℚ) < img.created then
      cleanup_images_go used now min_age_days simulate rest cands cmds
    else
      cleanup_images_go used now min_age_days simulate rest (cands ++ [img.id])
        (if simulate then cmds else cmds ++ ["docker rmi --no-prune=true " ++ img.id])

/-- Embedding of `cleanup_images` (kastenwesen.py lines 1011-1048). -/
def cleanup_images (st : DockerState) (min_age_days : ℕ) (simulate : Bool)
    (simulated_deleted_containers : List String) :
    Except String (List String × List String) :=
  match used_image_ids_go st.images simulated_deleted_containers
      st.containers [] with
  | Except.error e => Except.error e
  | Except.ok used =>
    cleanup_images_go used st.now min_age_days simulate st.dangling_images [] []

/--
The cleanup command of `main` (kastenwesen.py lines 1254-1267): container
GC first; in simulate mode its candidate list is handed to image GC as
`simulated_deleted_containers`, in a real run the containers are actually
gone from the engine state by the time image GC queries it.
-/
def cleanup_command (st : DockerState) (min_age_days : ℕ) (simulate : Bool) :
    Except String ((List String × List String) × (List String × List String)) :=
  match cleanup_containers st min_age_days simulate with
  | Except.error e => Except.error e
  | Except.ok (deleted, c_cmds) =>
    let st2 := if simulate then st else remove_containers st deleted
    let simulated_deleted := if simulate then deleted else []
    match cleanup_images st2 min_age_days simulate simulated_deleted with
    | Except.error e => Except.error e
    | Except.ok (img_cands, i_cmds) =>
      Except.ok ((deleted, c_cmds), (img_cands, i_cmds))

/-- A state with one stopped container that never finished (pseudo finish date). -/
def never_finished_state : DockerState :=
  { containers := [⟨"c1", false, none, 0, "img1"⟩]
    images := [⟨"img1", ["base:latest"], 0⟩]
    dangling_images := []
    config_container_ids := []
    now := 1700000000 }

/--
C6 counterexample: a stopped container with an absent finish time is not
skipped by `cleanup_containers`; even with `min_age_days = 9999` it is
removed, because the missing-finish-time branch bypasses the age check
entirely and falls through to removal.
-/
theorem claim6_counterexample :
    cleanup_containers never_finished_state 9999 false =
      Except.ok (["c1"], ["docker rm c1"]) := by
  rfl

theorem cleanup_containers_go_never_finished (config_ids : List String)
    (now : ℚ) (min_age_days : ℕ) (simulate : Bool) :
    ∀ (l : List ContainerRecord) (racc cacc removed cmds : List String),
      cleanup_containers_go config_ids now min_age_days simulate l racc cacc =
        Except.ok (removed, cmds) →
      (∀ x ∈ racc, x ∈ removed) ∧
      (∀ c ∈ l, c.running = false → c.finished_at = none →
        c.id ∉ config_ids → c.id ∈ removed) := by
  intro l
  induction l with
  | nil =>
    intro racc cacc removed cmds h
    simp only [cleanup_containers_go] at h
    cases h
    exact ⟨fun x hx => hx, fun c hc => absurd hc (List.not_mem_nil c)⟩
  | cons c rest ih =>
    intro racc cacc removed cmds h
    simp only [cleanup_containers_go] at h
    by_cases hrun : c.running
    · rw [if_pos hrun] at h
      rcases ih racc cacc removed cmds h with ⟨hacc, hrest⟩
      refine ⟨hacc, ?_⟩
      intro d hd hdrun hdfin hdcfg
      rcases List.mem_cons.mp hd with h1 | h1
      · subst h1; rw [hdrun] at hrun; cases hrun
      · exact hrest d h1 hdrun hdfin hdcfg
    · rw [if_neg hrun] at h
      rcases hfin : c.finished_at with _ | f
      · rw [hfin] at h
        dsimp only at h
        by_cases hcfg : c.id ∈ config_ids
        · have hstep : cleanup_remove_step config_ids simulate c racc cacc =
              (racc, cacc) := by
            simp [cleanup_remove_step, hcfg]
          rw [hstep] at h
          rcases ih racc cacc removed cmds h with ⟨hacc, hrest⟩
          refine ⟨hacc, ?_⟩
          intro d hd hdrun hdfin hdcfg
          rcases List.mem_cons.mp hd with h1 | h1
          · subst h1; exact absurd hcfg hdcfg
          · exact hrest d h1 hdrun hdfin hdcfg
        · have hstep : cleanup_remove_step config_ids simulate c racc cacc =
              (racc ++ [c.id],
                if simulate then cacc else cacc ++ ["docker rm " ++ c.id]) := by
            simp [cleanup_remove_step, hcfg]
          rw [hstep] at h
          rcases ih (racc ++ [c.id]) _ removed cmds h with ⟨hacc, hrest⟩
          refine ⟨?_, ?_⟩
          · intro x hx
            exact hacc x (List.mem_append_left _ hx)
          · intro d hd hdrun hdfin hdcfg
            rcases List.mem_cons.mp hd with h1 | h1
            · subst h1
              exact hacc d.id (List.mem_append_right _ (List.mem_singleton.mpr rfl))
            · exact hrest d h1 hdrun hdfin hdcfg
      · rw [hfin] at h
        dsimp only at h
        have hvac : ∀ racc2 cacc2,
            cleanup_containers_go config_ids now min_age_days simulate rest
              racc2 cacc2 = Except.ok (removed, cmds) →
            (∀ x ∈ racc2, x ∈ removed) →
            (∀ x ∈ racc, x ∈ racc2) →
            (∀ x ∈ racc, x ∈ removed) ∧
            (∀ d ∈ c :: rest, d.running = false → d.finished_at = none →
              d.id ∉ config_ids → d.id ∈ removed) := by
          intro racc2 cacc2 h2 hsub hpre
          rcases ih racc2 cacc2 removed cmds h2 with ⟨hacc, hrest⟩
          refine ⟨fun x hx => hacc x (hpre x hx), ?_⟩
          intro d hd hdrun hdfin hdcfg
          rcases List.mem_cons.mp hd with h1 | h1
          · subst h1; rw [hdfin] at hfin; cases hfin
          · exact hrest d h1 hdrun hdfin hdcfg
        by_cases h2002 : epoch2002 < f
        · rw [if_pos h2002] at h
          by_cases hyoung : now - f < 86400 * (min_age_days : ℚ)
          · rw [if_pos hyoung] at h
            rcases ih racc cacc removed cmds h with ⟨hacc, _⟩
            exact hvac racc cacc h hacc (fun x hx => hx)
          · rw [if_neg hyoung] at h
            by_cases hord : c.created ≤ f
            · rw [if_pos hord] at h
              rcases hstep : cleanup_remove_step config_ids simulate c racc cacc
                with ⟨racc2, cacc2⟩
              rw [hstep] at h
              rcases ih racc2 cacc2 removed cmds h with ⟨hacc, _⟩
              refine hvac racc2 cacc2 h hacc ?_
              intro x hx
              unfold cleanup_remove_step at hstep
              by_cases hcfg : c.id ∈ config_ids
              · rw [if_pos hcfg] at hstep
                cases hstep
                exact hx
              · rw [if_neg hcfg] at hstep
                cases hstep
                exact List.mem_append_left _ hx
            · rw [if_neg hord] at h
              cases h
        · rw [if_neg h2002] at h
          cases h

/--
C6 amended: a stopped container whose finish time is absent bypasses the
age check entirely; unless it is a tracked latest instance it is always
put on the removal list, regardless of `min_age_days`.
-/
theorem claim6_amended_never_finished_removed (st : DockerState)
    (min_age_days : ℕ) (simulate : Bool) (removed cmds : List String)
    (hok : cleanup_containers st min_age_days simulate =
      Except.ok (removed, cmds)) :
    ∀ c ∈ st.containers, c.running = false → c.finished_at = none →
      c.id ∉ st.config_container_ids → c.id ∈ removed :=
  (cleanup_containers_go_never_finished st.config_container_ids st.now
    min_age_days simulate st.containers [] [] removed cmds hok).2

/-- Witness for the amended C6 on the concrete never-finished state. -/
theorem claim6_amended_witness :
    (⟨"c1", false, none, 0, "img1"⟩ : ContainerRecord).id ∈ ["c1"] := by
  have h := claim6_amended_never_finished_removed never_finished_state 9999
    false ["c1"] ["docker rm c1"] claim6_counterexample
    ⟨"c1", false, none, 0, "img1"⟩ (by decide) rfl rfl (by decide)
  exact h

theorem cleanup_remove_step_fst (config_ids : List String)
    (simulate simulate2 : Bool) (c : ContainerRecord)
    (racc cacc cacc2 : List String) :
    (cleanup_remove_step config_ids simulate c racc cacc).1 =
      (cleanup_remove_step config_ids simulate2 c racc cacc2).1 := by
  by_cases hcfg : c.id ∈ config_ids <;> simp [cleanup_remove_step, hcfg]

theorem cleanup_remove_step_sim_snd (config_ids : List String)
    (c : ContainerRecord) (racc cacc : List String) :
    (cleanup_remove_step config_ids true c racc cacc).2 = cacc := by
  by_cases hcfg : c.id ∈ config_ids <;> simp [cleanup_remove_step, hcfg]

theorem cleanup_containers_go_sim_of_real (config_ids : List String)
    (now : ℚ) (min_age_days : ℕ) :
    ∀ (l : List ContainerRecord) (racc cacc cacc2 removed cmds : List String),
      cleanup_containers_go config_ids now min_age_days false l racc cacc =
        Except.ok (removed, cmds) →
      cleanup_containers_go config_ids now min_age_days true l racc cacc2 =
        Except.ok (removed, cacc2) := by
  intro l
  induction l with
  | nil =>
    intro racc cacc cacc2 removed cmds h
    simp only [cleanup_containers_go] at h ⊢
    cases h
    rfl
  | cons c rest ih =>
    intro racc cacc cacc2 removed cmds h
    simp only [cleanup_containers_go] at h ⊢
    by_cases hrun : c.running
    · rw [if_pos hrun] at h ⊢
      exact ih racc cacc cacc2 removed cmds h
    · rw [if_neg hrun] at h ⊢
      rcases hfin : c.finished_at with _ | f
      · rw [hfin] at h
        dsimp only at h ⊢
        have hfst := cleanup_remove_step_fst config_ids false true c racc cacc cacc2
        rw [← hfst, cleanup_remove_step_sim_snd]
        exact ih _ _ cacc2 removed cmds h
      · rw [hfin] at h
        dsimp only at h ⊢
        by_cases h2002 : epoch2002 < f
        · rw [if_pos h2002] at h ⊢
          by_cases hyoung : now - f < 86400 * (min_age_days : ℚ)
          · rw [if_pos hyoung] at h ⊢
            exact ih racc cacc cacc2 removed cmds h
          · rw [if_neg hyoung] at h ⊢
            by_cases hord : c.created ≤ f
            · rw [if_pos hord] at h ⊢
              have hfst := cleanup_remove_step_fst config_ids false true c racc cacc cacc2
              rw [← hfst, cleanup_remove_step_sim_snd]
              exact ih _ _ cacc2 removed cmds h
            · rw [if_neg hord] at h
              cases h
        · rw [if_neg h2002] at h
          cases h

theorem cleanup_containers_go_ok (config_ids : List String) (now : ℚ)
    (min_age_days : ℕ) (simulate : Bool) :
    ∀ (l : List ContainerRecord) (racc cacc : List String),
      (∀ c ∈ l, c.running = false → ∀ f, c.finished_at = some f →
        epoch2002 < f ∧
          (¬ (now - f < 86400 * (min_age_days : ℚ)) → c.created ≤ f)) →
      ∃ removed cmds,
        cleanup_containers_go config_ids now min_age_days simulate l racc cacc =
          Except.ok (removed, cmds) := by
  intro l
  induction l with
  | nil =>
    intro racc cacc _
    exact ⟨racc, cacc, rfl⟩
  | cons c rest ih =>
    intro racc cacc hwf
    have hwfrest : ∀ d ∈ rest, d.running = false → ∀ f, d.finished_at = some f →
        epoch2002 < f ∧
          (¬ (now - f < 86400 * (min_age_days : ℚ)) → d.created ≤ f) :=
      fun d hd => hwf d (List.mem_cons_of_mem c hd)
    simp only [cleanup_containers_go]
    by_cases hrun : c.running
    · rw [if_pos hrun]
      exact ih racc cacc hwfrest
    · rw [if_neg hrun]
      rcases hfin : c.finished_at with _ | f
      · dsimp only
        exact ih _ _ hwfrest
      · dsimp only
        have hc := hwf c (List.mem_cons_self c rest)
          (Bool.not_eq_true c.running ▸ hrun) f hfin
        rw [if_pos hc.1]
        by_cases hyoung : now - f < 86400 * (min_age_days : ℚ)
        · rw [if_pos hyoung]
          exact ih racc cacc hwfrest
        · rw [if_neg hyoung, if_pos (hc.2 hyoung)]
          exact ih _ _ hwfrest

theorem used_image_ids_go_spec (images : List ImageRecord)
    (simulated_deleted : List String) :
    ∀ (l : List ContainerRecord) (acc : List String),
      (∀ c ∈ l, c.image ∈ images.map (fun i => i.id)) →
      used_image_ids_go images simulated_deleted l acc =
        Except.ok (acc ++
          (l.filter (fun c => decide (c.id ∉ simulated_deleted))).map
            (fun c => c.image)) := by
  intro l
  induction l with
  | nil =>
    intro acc _
    simp [used_image_ids_go]
  | cons c rest ih =>
    intro acc hwf
    have hc := hwf c (List.mem_cons_self c rest)
    have hrest : ∀ d ∈ rest, d.image ∈ images.map (fun i => i.id) :=
      fun d hd => hwf d (List.mem_cons_of_mem c hd)
    simp only [used_image_ids_go, if_pos hc]
    by_cases hdel : c.id ∈ simulated_deleted
    · rw [if_pos hdel, ih acc hrest]
      simp [List.filter_cons, hdel]
    · rw [if_neg hdel, ih (acc ++ [c.image]) hrest]
      simp [List.filter_cons, hdel]

/-- The dangling-image candidate test of `cleanup_images`: unused and at least `min_age_days` old. -/
def image_gc_candidate (used : List String) (now : ℚ) (min_age_days : ℕ)
    (img : ImageRecord) : Bool :=
  decide (img.id ∉ used) &&
    decide (¬ (now - 86400 * (min_age_days : ℚ) < img.created))

theorem cleanup_images_go_spec (used : List String) (now : ℚ)
    (min_age_days : ℕ) (simulate : Bool) :
    ∀ (l : List ImageRecord) (cands cmds : List String),
      (∀ i ∈ l, i.repo_tags = ["<none>:<none>"]) →
      cleanup_images_go used now min_age_days simulate l cands cmds =
        Except.ok
          (cands ++ (l.filter (image_gc_candidate used now min_age_days)).map
              (fun i => i.id),
           cmds ++ (if simulate then [] else
             (l.filter (image_gc_candidate used now min_age_days)).map
               (fun i => "docker rmi --no-prune=true " ++ i.id))) := by
  intro l
  induction l with
  | nil =>
    intro cands cmds _
    simp [cleanup_images_go]
  | cons img rest ih =>
    intro cands cmds hwf
    have htag := hwf img (List.mem_cons_self img rest)
    have hrest : ∀ i ∈ rest, i.repo_tags = ["<none>:<none>"] :=
      fun i hi => hwf i (List.mem_cons_of_mem img hi)
    simp only [cleanup_images_go, htag, ne_eq, not_true_eq_false, if_false]
    by_cases hused : img.id ∈ used
    · rw [if_pos hused, ih cands cmds hrest]
      have hcand : image_gc_candidate used now min_age_days img = false := by
        simp [image_gc_candidate, hused]
      simp [List.filter_cons, hcand]
    · rw [if_neg hused]
      by_cases hyoung : now - 86400 * (min_age_days : ℚ) < img.created
      · rw [if_pos hyoung, ih cands cmds hrest]
        have hcand : image_gc_candidate used now min_age_days img = false := by
          simp [image_gc_candidate, hused, hyoung]
        simp [List.filter_cons, hcand]
      · rw [if_neg hyoung, ih _ _ hrest]
        have hcand : image_gc_candidate used now min_age_days img = true := by
          simp [image_gc_candidate, hused, hyoung]
        rcases hsim : simulate
        · simp [List.filter_cons, hcand, hsim]
        · simp [List.filter_cons, hcand, hsim]

/--
Well-formedness of the engine state as the cleanup assertions demand it:
every container's image exists in the image listing, stopped containers
have sane finish and creation times, and dangling images carry the
untagged sentinel. The cleanup assertions (which the spec classifies as
fatal runtime-contract violations) never fire on such a state.
-/
def WfDockerState (st : DockerState) (min_age_days : ℕ) : Prop :=
  (∀ c ∈ st.containers, c.image ∈ st.images.map (fun i => i.id)) ∧
  (∀ c ∈ st.containers, c.running = false → ∀ f, c.finished_at = some f →
    epoch2002 < f ∧
      (¬ (st.now - f < 86400 * (min_age_days : ℚ)) → c.created ≤ f)) ∧
  (∀ i ∈ st.dangling_images, i.repo_tags = ["<none>:<none>"])

/--
C8: on a well-formed engine state, a simulated cleanup run executes no
remove command at all, and it selects exactly the same container
candidates and (feeding the simulated deletions into image GC) exactly
the same image candidates as a real run over the same state.
-/
theorem cleanup_command_eq (st : DockerState) (min_age_days : ℕ)
    (simulate : Bool) (deleted c_cmds img_cands i_cmds : List String)
    (h1 : cleanup_containers st min_age_days simulate =
      Except.ok (deleted, c_cmds))
    (h2 : cleanup_images (if simulate then st else remove_containers st deleted)
        min_age_days simulate (if simulate then deleted else []) =
      Except.ok (img_cands, i_cmds)) :
    cleanup_command st min_age_days simulate =
      Except.ok ((deleted, c_cmds), (img_cands, i_cmds)) := by
  unfold cleanup_command
  rw [h1]
  dsimp only
  rw [h2]

theorem claim8_simulate_equals_real (st : DockerState) (min_age_days : ℕ)
    (hwf : WfDockerState st min_age_days) :
    ∃ deleted c_cmds img_cands i_cmds,
      cleanup_command st min_age_days true =
        Except.ok ((deleted, []), (img_cands, [])) ∧
      cleanup_command st min_age_days false =
        Except.ok ((deleted, c_cmds), (img_cands, i_cmds)) := by
  obtain ⟨himg, hctr, htags⟩ := hwf
  obtain ⟨removed, cmds, hreal⟩ :=
    cleanup_containers_go_ok st.config_container_ids st.now min_age_days false
      st.containers [] [] hctr
  have hsim := cleanup_containers_go_sim_of_real st.config_container_ids st.now
    min_age_days st.containers [] [] [] removed cmds hreal
  have hrealc : cleanup_containers st min_age_days false =
      Except.ok (removed, cmds) := hreal
  have hsimc : cleanup_containers st min_age_days true =
      Except.ok (removed, []) := hsim
  have hfilter_sub : ∀ c ∈ st.containers.filter
      (fun c => decide (c.id ∉ removed)), c.image ∈ st.images.map (fun i => i.id) :=
    fun c hc => himg c (List.mem_of_mem_filter hc)
  have hused_sim : used_image_ids_go st.images removed st.containers [] =
      Except.ok ((st.containers.filter (fun c => decide (c.id ∉ removed))).map
        (fun c => c.image)) := by
    rw [used_image_ids_go_spec st.images removed st.containers [] himg]
    simp
  have hnilfilter :
      (st.containers.filter (fun c => decide (c.id ∉ removed))).filter
        (fun c => decide (c.id ∉ ([] : List String))) =
      st.containers.filter (fun c => decide (c.id ∉ removed)) := by
    have hpred : (fun (c : ContainerRecord) =>
        decide (c.id ∉ ([] : List String))) = fun _ => true := by
      funext c
      simp
    rw [hpred]
    exact List.filter_true _
  have hused_real : used_image_ids_go st.images []
      (st.containers.filter (fun c => decide (c.id ∉ removed))) [] =
      Except.ok ((st.containers.filter (fun c => decide (c.id ∉ removed))).map
        (fun c => c.image)) := by
    rw [used_image_ids_go_spec st.images []
      (st.containers.filter (fun c => decide (c.id ∉ removed))) [] hfilter_sub]
    rw [hnilfilter]
    simp
  set used := (st.containers.filter (fun c => decide (c.id ∉ removed))).map
    (fun c => c.image) with hused_def
  have himgs_sim := cleanup_images_go_spec used st.now min_age_days true
    st.dangling_images [] [] htags
  have himgs_real := cleanup_images_go_spec used st.now min_age_days false
    st.dangling_images [] [] htags
  rw [if_pos rfl, List.nil_append, List.nil_append] at himgs_sim
  rw [if_neg Bool.false_ne_true, List.nil_append, List.nil_append] at himgs_real
  have hclean_sim : cleanup_images st min_age_days true removed =
      Except.ok ((st.dangling_images.filter
          (image_gc_candidate used st.now min_age_days)).map (fun i => i.id),
        []) := by
    unfold cleanup_images
    rw [hused_sim]
    exact himgs_sim
  have hclean_real : cleanup_images (remove_containers st removed)
      min_age_days false [] =
      Except.ok ((st.dangling_images.filter
          (image_gc_candidate used st.now min_age_days)).map (fun i => i.id),
        (st.dangling_images.filter
          (image_gc_candidate used st.now min_age_days)).map
            (fun i => "docker rmi --no-prune=true " ++ i.id)) := by
    unfold cleanup_images
    have hst2a : (remove_containers st removed).images = st.images := rfl
    have hst2b : (remove_containers st removed).containers =
        st.containers.filter (fun c => decide (c.id ∉ removed)) := rfl
    have hst2c : (remove_containers st removed).now = st.now := rfl
    have hst2d : (remove_containers st removed).dangling_images =
        st.dangling_images := rfl
    rw [hst2a, hst2b, hst2c, hst2d, hused_real]
    exact himgs_real
  refine ⟨removed,
    cmds,
    (st.dangling_images.filter
      (image_gc_candidate used st.now min_age_days)).map (fun i => i.id),
    (st.dangling_images.filter
      (image_gc_candidate used st.now min_age_days)).map
        (fun i => "docker rmi --no-prune=true " ++ i.id), ?_, ?_⟩
  · exact cleanup_command_eq st min_age_days true removed [] _ _ hsimc
      (by rw [if_pos rfl, if_pos rfl]; exact hclean_sim)
  · exact cleanup_command_eq st min_age_days false removed cmds _ _ hrealc
      (by rw [if_neg Bool.false_ne_true, if_neg Bool.false_ne_true]
          exact hclean_real)

/-- A small well-formed state: one stopped old container to collect and one old dangling image. -/
def cleanup_demo_state : DockerState :=
  { containers := [⟨"c1", false, some 1200000000, 1100000000, "img1"⟩,
      ⟨"c2", true, none, 1100000000, "img2"⟩]
    images := [⟨"img1", ["<none>:<none>"], 1100000000⟩,
      ⟨"img2", ["web:latest"], 1100000000⟩]
    dangling_images := [⟨"img1", ["<none>:<none>"], 1100000000⟩]
    config_container_ids := []
    now := 1700000000 }

/-- Witness for C8 on the concrete demo state. -/
theorem claim8_witness :
    WfDockerState cleanup_demo_state 3 ∧
    ∃ deleted c_cmds img_cands i_cmds,
      cleanup_command cleanup_demo_state 3 true =
        Except.ok ((deleted, []), (img_cands, [])) ∧
      cleanup_command cleanup_demo_state 3 false =
        Except.ok ((deleted, c_cmds), (img_cands, i_cmds)) := by
  have hwf : WfDockerState cleanup_demo_state 3 := by
    refine ⟨?_, ?_, ?_⟩
    · intro c hc
      simp only [cleanup_demo_state, List.mem_cons, List.mem_singleton,
        List.not_mem_nil, or_false] at hc
      rcases hc with rfl | rfl <;> decide
    · intro c hc
      simp only [cleanup_demo_state, List.mem_cons, List.mem_singleton,
        List.not_mem_nil, or_false] at hc
      rcases hc with rfl | rfl
      · intro _ f hf
        have hfv : f = (1200000000 : ℚ) := by
          injection hf with hf2
          exact hf2.symm
        subst hfv
        constructor
        · norm_num [epoch2002]
        · intro _
          norm_num [cleanup_demo_state]
      · intro habs
        cases habs
    · intro i hi
      simp only [cleanup_demo_state, List.mem_singleton,
        List.not_mem_nil, or_false] at hi
      subst hi
      rfl
  exact ⟨hwf, claim8_simulate_equals_real cleanup_demo_state 3 hwf⟩

/-!
### Configuration check (`check_config`)
-/

/--
The configuration: the global ordered container list `config_containers`
together with each container object's `links` and `name` attributes.
Containers are identified by Python object identity, modelled as a `Nat`
object id; two distinct objects may carry the same `name`.
-/
structure Config where
  containers : List Nat
  links : Nat → List Nat
  name : Nat → String

/--
The loop of `check_config` (kastenwesen.py lines 1124-1131): walking the
list with the already-seen front segment, assert the entry does not recur
(object identity) and that every link points at an already-seen entry.
`false` models an assertion failure.
-/
def check_config_go (cfg : Config) (seen : List Nat) : List Nat → Bool
  | [] => true
  | c :: rest =>
    if c ∈ seen then false
    else if (cfg.links c).all (fun l => decide (l ∈ seen)) then
      check_config_go cfg (seen ++ [c]) rest
    else false

/-- Embedding of `check_config` (kastenwesen.py lines 1124-1131). -/
def check_config (cfg : Config) (containers : List Nat) : Bool :=
  check_config_go cfg [] containers

/-- Two distinct container objects (ids 0 and 1) that share the name "web". -/
def duplicate_name_config : Config :=
  { containers := [0, 1]
    links := fun _ => []
    name := fun _ => "web" }

/--
C7 counterexample: `check_config` compares entries by object identity, so
a list with two distinct container objects carrying the same name passes
the check; duplicate names alone are not a fatal configuration error.
-/
theorem claim7_counterexample :
    duplicate_name_config.name 0 = duplicate_name_config.name 1 ∧
    (0 : Nat) ≠ 1 ∧
    check_config duplicate_name_config duplicate_name_config.containers =
      true := by
  exact ⟨rfl, by decide, by rfl⟩

theorem check_config_go_nodup (cfg : Config) :
    ∀ (l seen : List Nat), seen.Nodup →
      check_config_go cfg seen l = true → (seen ++ l).Nodup := by
  intro l
  induction l with
  | nil =>
    intro seen hs _
    simpa using hs
  | cons c rest ih =>
    intro seen hs h
    simp only [check_config_go] at h
    by_cases hc : c ∈ seen
    · rw [if_pos hc] at h; cases h
    · rw [if_neg hc] at h
      by_cases hl : (cfg.links c).all (fun l => decide (l ∈ seen))
      · rw [if_pos hl] at h
        have hs2 : (seen ++ [c]).Nodup := by
          rw [List.nodup_append]
          exact ⟨hs, List.nodup_singleton c,
            fun x hx hmem => hc (by rwa [List.mem_singleton.mp hmem] at hx)⟩
        have := ih (seen ++ [c]) hs2 h
        rwa [List.append_assoc, List.singleton_append] at this
      · rw [if_neg hl] at h; cases h

/--
C7 amended: the configuration check fails fatally exactly on identity
duplicates: whenever the same container entry (the same object) appears
twice in the list, `check_config` raises; distinct objects that merely
share a name are not rejected (see the counterexample).
-/
theorem claim7_amended_duplicate_entry (cfg : Config) (containers : List Nat)
    (hdup : ¬ containers.Nodup) :
    check_config cfg containers = false := by
  cases hv : check_config cfg containers
  · rfl
  · exfalso
    apply hdup
    have := check_config_go_nodup cfg containers [] List.nodup_nil hv
    simpa using this

/-- Witness for the amended C7: the same container object listed twice fails the check. -/
theorem claim7_amended_witness :
    (¬ ([0, 0] : List Nat).Nodup) ∧
    check_config duplicate_name_config [0, 0] = false :=
  ⟨by decide, claim7_amended_duplicate_entry duplicate_name_config [0, 0]
    (by decide)⟩

/-!
### Dependency resolver (`ordered_by_dependency`, kastenwesen.py lines 835-887)

The Python function mutates `containers` and `ordered_containers` inside a
`while something_changed` loop. The embedding threads the state
`(containers, links_satisfied / ordered, something_changed)` through folds
and gives the outer while loops an explicit fuel parameter; the claims
assume enough fuel and we prove the loops have stabilised by then.

For `add_reverse_dependencies`, Python keeps `reverse_dependencies` as a
`set` and appends `list(reverse_dependencies)` to `containers`; a set has
no defined order, so the embedding determinises it as a duplicate-free
list in discovery order (initially `set(containers)`, modelled as
`input.dedup`). Only the membership view of this list matters to the
algorithm itself.
-/

/--
One step of the inner `for link in container.links` loop (lines 872-883).
The state is `(containers, links_satisfied, something_changed)`;
`ordered` does not change while the links of one container are examined.
A link already in `containers` is checked against `ordered`; a missing
link is appended to `containers` (and still checked) when
`add_dependencies` is set, and silently skipped otherwise.
-/
def link_step (add_dependencies : Bool) (ordered : List Nat)
    (st : List Nat × Bool × Bool) (link : Nat) : List Nat × Bool × Bool :=
  if link ∈ st.1 then
    (st.1, st.2.1 && decide (link ∈ ordered), st.2.2)
  else if add_dependencies then
    (st.1 ++ [link], st.2.1 && decide (link ∈ ordered), true)
  else
    st

/--
One step of the `for container in copy(containers)` loop (lines 867-886):
an already-ordered container is skipped; otherwise its links are examined
and, when all of them are satisfied, the container joins the ordering.
The state is `(containers, ordered_containers, something_changed)`.
-/
def container_step (cfg : Config) (add_dependencies : Bool)
    (st : List Nat × List Nat × Bool) (c : Nat) : List Nat × List Nat × Bool :=
  if c ∈ st.2.1 then st
  else
    let r := (cfg.links c).foldl (link_step add_dependencies st.2.1)
      (st.1, true, st.2.2)
    if r.2.1 then (r.1, st.2.1 ++ [c], true) else (r.1, st.2.1, r.2.2)

/-- One pass of the while loop body over the snapshot `copy(containers)`. -/
def order_pass (cfg : Config) (add_dependencies : Bool) (snapshot : List Nat)
    (st : List Nat × List Nat × Bool) : List Nat × List Nat × Bool :=
  snapshot.foldl (container_step cfg add_dependencies) st

/--
The `while something_changed` loop of the ordering phase (lines 864-887),
with fuel. Each iteration snapshots the current `containers`, resets the
flag and runs one pass.
-/
def order_loop (cfg : Config) (add_dependencies : Bool) :
    Nat → List Nat → List Nat → List Nat
  | 0, _, ordered => ordered
  | fuel + 1, containers, ordered =>
    let r := order_pass cfg add_dependencies containers (containers, ordered, false)
    if r.2.2 then order_loop cfg add_dependencies fuel r.1 r.2.1 else r.2.1

/--
One step of the reverse-dependency scan (lines 851-861), for one link of
one candidate container `c` from the global config list: when the link
hits the requested containers or the working set, `c` is added to the
working set unless already present. The state is `(reverse_dependencies,
something_changed)`; `input` is the unmodified requested list.
-/
def rev_link_step (input : List Nat) (c : Nat) (st : List Nat × Bool)
    (link : Nat) : List Nat × Bool :=
  if link ∈ input ∨ link ∈ st.1 then
    if c ∈ st.1 then st else (st.1 ++ [c], true)
  else
    st

/-- One pass of the reverse-dependency while loop over all configured containers and their links. -/
def rev_pass (cfg : Config) (input : List Nat) (st : List Nat × Bool) :
    List Nat × Bool :=
  cfg.containers.foldl
    (fun st c => (cfg.links c).foldl (rev_link_step input c) st) st

/-- The `while something_changed` loop of the reverse-dependency phase (lines 847-861), with fuel. -/
def rev_loop (cfg : Config) (input : List Nat) : Nat → List Nat → List Nat
  | 0, rev => rev
  | fuel + 1, rev =>
    let r := rev_pass cfg input (rev, false)
    if r.2 then rev_loop cfg input fuel r.1 else r.1

/--
Embedding of `ordered_by_dependency` (kastenwesen.py lines 835-887):
optionally close the working list under reverse dependencies (appending
the determinised set, which initially holds `set(containers)`), then run
the ordering fixed-point loop starting from an empty ordering.
-/
def ordered_by_dependency (cfg : Config) (input : List Nat)
    (add_dependencies add_reverse_dependencies : Bool) (fuel : Nat) :
    List Nat :=
  let containers :=
    if add_reverse_dependencies then
      input ++ rev_loop cfg input fuel input.dedup
    else
      input
  order_loop cfg add_dependencies fuel containers []

theorem link_step_mem (aD : Bool) (O : List Nat) (st : List Nat × Bool × Bool)
    (link : Nat) (h : link ∈ st.1) :
    link_step aD O st link = (st.1, st.2.1 && decide (link ∈ O), st.2.2) := by
  simp [link_step, h]

theorem link_step_new_add (O : List Nat) (st : List Nat × Bool × Bool)
    (link : Nat) (h : link ∉ st.1) :
    link_step true O st link =
      (st.1 ++ [link], st.2.1 && decide (link ∈ O), true) := by
  simp [link_step, h]

theorem link_step_new_skip (O : List Nat) (st : List Nat × Bool × Bool)
    (link : Nat) (h : link ∉ st.1) :
    link_step false O st link = st := by
  simp [link_step, h]

theorem link_fold_shape (aD : Bool) (O : List Nat) :
    ∀ (lks C : List Nat) (sat ch : Bool),
      ∃ t, (lks.foldl (link_step aD O) (C, sat, ch)).1 = C ++ t ∧
        t.Nodup ∧ (∀ x ∈ t, x ∉ C) ∧ (∀ x ∈ t, x ∈ lks) := by
  intro lks
  induction lks with
  | nil =>
    intro C sat ch
    exact ⟨[], by simp⟩
  | cons l lks ih =>
    intro C sat ch
    rw [List.foldl_cons]
    by_cases hl : l ∈ C
    · rw [link_step_mem aD O (C, sat, ch) l hl]
      rcases ih C (sat && decide (l ∈ O)) ch with ⟨t, h1, h2, h3, h4⟩
      exact ⟨t, h1, h2, h3, fun x hx => List.mem_cons_of_mem l (h4 x hx)⟩
    · cases haD : aD
      · rw [haD] at ih
        rw [link_step_new_skip O (C, sat, ch) l hl]
        rcases ih C sat ch with ⟨t, h1, h2, h3, h4⟩
        exact ⟨t, h1, h2, h3, fun x hx => List.mem_cons_of_mem l (h4 x hx)⟩
      · rw [haD] at ih
        rw [link_step_new_add O (C, sat, ch) l hl]
        rcases ih (C ++ [l]) (sat && decide (l ∈ O)) true with ⟨t, h1, h2, h3, h4⟩
        refine ⟨l :: t, ?_, ?_, ?_, ?_⟩
        · rw [h1, List.append_assoc, List.singleton_append]
        · refine List.nodup_cons.mpr ⟨?_, h2⟩
          intro hlt
          exact (h3 l hlt) (List.mem_append_right C (List.mem_singleton.mpr rfl))
        · intro x hx
          rcases List.mem_cons.mp hx with rfl | hx2
          · exact hl
          · intro hxC
            exact (h3 x hx2) (List.mem_append_left [l] hxC)
        · intro x hx
          rcases List.mem_cons.mp hx with rfl | hx2
          · exact List.mem_cons_self x lks
          · exact List.mem_cons_of_mem l (h4 x hx2)

theorem link_fold_no_deps (O : List Nat) :
    ∀ (lks C : List Nat) (sat ch : Bool),
      (lks.foldl (link_step false O) (C, sat, ch)).1 = C := by
  intro lks
  induction lks with
  | nil => intro C sat ch; rfl
  | cons l lks ih =>
    intro C sat ch
    rw [List.foldl_cons]
    by_cases hl : l ∈ C
    · rw [link_step_mem false O (C, sat, ch) l hl]
      exact ih C _ ch
    · rw [link_step_new_skip O (C, sat, ch) l hl]
      exact ih C sat ch

theorem link_fold_changed_of (aD : Bool) (O : List Nat) :
    ∀ (lks C : List Nat) (sat : Bool),
      (lks.foldl (link_step aD O) (C, sat, true)).2.2 = true := by
  intro lks
  induction lks with
  | nil => intro C sat; rfl
  | cons l lks ih =>
    intro C sat
    rw [List.foldl_cons]
    by_cases hl : l ∈ C
    · rw [link_step_mem aD O (C, sat, true) l hl]
      exact ih C _
    · cases haD : aD
      · rw [haD] at ih
        rw [link_step_new_skip O (C, sat, true) l hl]
        exact ih C sat
      · rw [haD] at ih
        rw [link_step_new_add O (C, sat, true) l hl]
        exact ih (C ++ [l]) _

theorem link_fold_unchanged (aD : Bool) (O : List Nat) :
    ∀ (lks C : List Nat) (sat ch : Bool),
      (lks.foldl (link_step aD O) (C, sat, ch)).2.2 = false →
      (lks.foldl (link_step aD O) (C, sat, ch)).1 = C ∧ ch = false := by
  intro lks
  induction lks with
  | nil => intro C sat ch h; exact ⟨rfl, h⟩
  | cons l lks ih =>
    intro C sat ch h
    rw [List.foldl_cons] at h ⊢
    by_cases hl : l ∈ C
    · rw [link_step_mem aD O (C, sat, ch) l hl] at h ⊢
      exact ih C _ ch h
    · revert h
      cases haD : aD
      · rw [link_step_new_skip O (C, sat, ch) l hl]
        intro h
        rw [haD] at ih
        exact ih C sat ch h
      · rw [link_step_new_add O (C, sat, ch) l hl]
        rw [link_fold_changed_of true O lks (C ++ [l]) _]
        intro h
        cases h

theorem link_fold_changed_grow (aD : Bool) (O : List Nat) :
    ∀ (lks C : List Nat) (sat : Bool),
      (lks.foldl (link_step aD O) (C, sat, false)).2.2 = true →
      C.length < (lks.foldl (link_step aD O) (C, sat, false)).1.length := by
  intro lks
  induction lks with
  | nil => intro C sat h; cases h
  | cons l lks ih =>
    intro C sat h
    rw [List.foldl_cons] at h ⊢
    by_cases hl : l ∈ C
    · rw [link_step_mem aD O (C, sat, false) l hl] at h ⊢
      exact ih C _ h
    · revert h
      cases haD : aD
      · rw [link_step_new_skip O (C, sat, false) l hl]
        intro h
        rw [haD] at ih
        exact ih C sat h
      · rw [link_step_new_add O (C, sat, false) l hl]
        intro _
        rcases link_fold_shape true O lks (C ++ [l]) (sat && decide (l ∈ O)) true
          with ⟨t, h1, _, _, _⟩
        rw [h1, List.length_append, List.length_append]
        simp only [List.length_singleton]
        omega

theorem link_fold_sat_of (aD : Bool) (O : List Nat) :
    ∀ (lks C : List Nat) (sat ch : Bool),
      (lks.foldl (link_step aD O) (C, sat, ch)).2.1 = true → sat = true := by
  intro lks
  induction lks with
  | nil => intro C sat ch h; exact h
  | cons l lks ih =>
    intro C sat ch h
    rw [List.foldl_cons] at h
    by_cases hl : l ∈ C
    · rw [link_step_mem aD O (C, sat, ch) l hl] at h
      have := ih C (sat && decide (l ∈ O)) ch h
      exact (Bool.and_eq_true _ _ |>.mp this).1
    · revert h
      cases haD : aD
      · rw [haD] at ih
        rw [link_step_new_skip O (C, sat, ch) l hl]
        intro h
        exact ih C sat ch h
      · rw [haD] at ih
        rw [link_step_new_add O (C, sat, ch) l hl]
        intro h
        have := ih (C ++ [l]) (sat && decide (l ∈ O)) true h
        exact (Bool.and_eq_true _ _ |>.mp this).1

theorem link_fold_sat_links (aD : Bool) (O : List Nat) :
    ∀ (lks C : List Nat) (sat ch : Bool),
      (lks.foldl (link_step aD O) (C, sat, ch)).2.1 = true →
      ∀ l ∈ lks, (aD = true ∨ l ∈ C) → l ∈ O := by
  intro lks
  induction lks with
  | nil => intro C sat ch _ l hl; cases hl
  | cons l lks ih =>
    intro C sat ch h
    rw [List.foldl_cons] at h
    by_cases hl : l ∈ C
    · rw [link_step_mem aD O (C, sat, ch) l hl] at h
      intro x hx _
      rcases List.mem_cons.mp hx with rfl | hx2
      · have hsat := link_fold_sat_of aD O lks C (sat && decide (x ∈ O)) ch h
        have := (Bool.and_eq_true _ _ |>.mp hsat).2
        exact of_decide_eq_true this
      · rename_i hcond
        exact ih C _ ch h x hx2 hcond
    · revert h
      cases haD : aD
      · rw [haD] at ih
        rw [link_step_new_skip O (C, sat, ch) l hl]
        intro h x hx hcond
        rcases List.mem_cons.mp hx with rfl | hx2
        · rcases hcond with habs | hmem
          · cases habs
          · exact absurd hmem hl
        · exact ih C sat ch h x hx2 hcond
      · rw [haD] at ih
        rw [link_step_new_add O (C, sat, ch) l hl]
        intro h x hx _
        rcases List.mem_cons.mp hx with hx1 | hx2
        · subst hx1
          have hsat := link_fold_sat_of true O lks (C ++ [x])
            (sat && decide (x ∈ O)) true h
          have := (Bool.and_eq_true _ _ |>.mp hsat).2
          exact of_decide_eq_true this
        · exact ih (C ++ [l]) _ true h x hx2 (Or.inl rfl)

theorem link_fold_fixed (aD : Bool) (O : List Nat) :
    ∀ (lks C : List Nat) (sat ch : Bool),
      (∀ l ∈ lks, l ∈ C → l ∈ O) → (aD = true → ∀ l ∈ lks, l ∈ C) →
      lks.foldl (link_step aD O) (C, sat, ch) = (C, sat, ch) := by
  intro lks
  induction lks with
  | nil => intro C sat ch _ _; rfl
  | cons l lks ih =>
    intro C sat ch h1 h2
    rw [List.foldl_cons]
    by_cases hl : l ∈ C
    · rw [link_step_mem aD O (C, sat, ch) l hl]
      have hO : l ∈ O := h1 l (List.mem_cons_self l lks) hl
      rw [decide_eq_true hO, Bool.and_true]
      exact ih C sat ch (fun x hx => h1 x (List.mem_cons_of_mem l hx))
        (fun haD x hx => h2 haD x (List.mem_cons_of_mem l hx))
    · cases haD : aD
      · rw [haD] at ih
        rw [link_step_new_skip O (C, sat, ch) l hl]
        exact ih C sat ch (fun x hx => h1 x (List.mem_cons_of_mem l hx))
          (fun habs => absurd habs (by simp [haD]))
      · exact absurd (h2 haD l (List.mem_cons_self l lks)) hl

theorem link_fold_sat_false (aD : Bool) (O : List Nat) :
    ∀ (lks C : List Nat) (sat ch : Bool),
      (lks.foldl (link_step aD O) (C, sat, ch)).2.1 = false →
      (lks.foldl (link_step aD O) (C, sat, ch)).2.2 = false →
      sat = false ∨ ∃ l ∈ lks, l ∈ C ∧ l ∉ O := by
  intro lks
  induction lks with
  | nil => intro C sat ch h _; exact Or.inl h
  | cons l lks ih =>
    intro C sat ch h hch
    rw [List.foldl_cons] at h hch
    by_cases hl : l ∈ C
    · rw [link_step_mem aD O (C, sat, ch) l hl] at h hch
      rcases ih C (sat && decide (l ∈ O)) ch h hch with h2 | ⟨x, hx, hxC, hxO⟩
      · rcases Bool.and_eq_false_iff.mp h2 with h3 | h3
        · exact Or.inl h3
        · exact Or.inr ⟨l, List.mem_cons_self l lks, hl, of_decide_eq_false h3⟩
      · exact Or.inr ⟨x, List.mem_cons_of_mem l hx, hxC, hxO⟩
    · revert h hch
      cases haD : aD
      · rw [haD] at ih
        rw [link_step_new_skip O (C, sat, ch) l hl]
        intro h hch
        rcases ih C sat ch h hch with h2 | ⟨x, hx, hxC, hxO⟩
        · exact Or.inl h2
        · exact Or.inr ⟨x, List.mem_cons_of_mem l hx, hxC, hxO⟩
      · rw [link_step_new_add O (C, sat, ch) l hl]
        intro _ hch
        rw [link_fold_changed_of true O lks (C ++ [l]) _] at hch
        cases hch

/--
Topological invariant of the ordering under construction: every link of
an ordered container that the pass could check (always, with
`add_dependencies`; otherwise only links inside `containers`) appears
strictly earlier in the ordering.
-/
def TopoInv (cfg : Config) (aD : Bool) (C O : List Nat) : Prop :=
  ∀ i (hi : i < O.length), ∀ l ∈ cfg.links (O.get ⟨i, hi⟩),
    (aD = true ∨ l ∈ C) → l ∈ O.take i

theorem cstep_skip (cfg : Config) (aD : Bool) (C O : List Nat) (ch : Bool)
    (c : Nat) (h : c ∈ O) :
    container_step cfg aD (C, O, ch) c = (C, O, ch) := by
  simp [container_step, h]

theorem cstep_not_mem (cfg : Config) (aD : Bool) (C O : List Nat) (ch : Bool)
    (c : Nat) (h : c ∉ O) :
    container_step cfg aD (C, O, ch) c =
      (if ((cfg.links c).foldl (link_step aD O) (C, true, ch)).2.1 then
        (((cfg.links c).foldl (link_step aD O) (C, true, ch)).1, O ++ [c], true)
      else
        (((cfg.links c).foldl (link_step aD O) (C, true, ch)).1, O,
          ((cfg.links c).foldl (link_step aD O) (C, true, ch)).2.2)) := by
  simp [container_step, h]

theorem cstep_containers_shape (cfg : Config) (aD : Bool) (C O : List Nat)
    (ch : Bool) (c : Nat) :
    ∃ t, (container_step cfg aD (C, O, ch) c).1 = C ++ t ∧ t.Nodup ∧
      (∀ x ∈ t, x ∉ C) ∧ (∀ x ∈ t, x ∈ cfg.links c) := by
  by_cases h : c ∈ O
  · rw [cstep_skip cfg aD C O ch c h]
    exact ⟨[], by simp⟩
  · rw [cstep_not_mem cfg aD C O ch c h]
    rcases link_fold_shape aD O (cfg.links c) C true ch with ⟨t, h1, h2, h3, h4⟩
    by_cases hsat : ((cfg.links c).foldl (link_step aD O) (C, true, ch)).2.1
    · rw [if_pos hsat]
      exact ⟨t, h1, h2, h3, h4⟩
    · rw [if_neg hsat]
      exact ⟨t, h1, h2, h3, h4⟩

theorem cstep_no_deps (cfg : Config) (C O : List Nat) (ch : Bool) (c : Nat) :
    (container_step cfg false (C, O, ch) c).1 = C := by
  by_cases h : c ∈ O
  · rw [cstep_skip cfg false C O ch c h]
  · rw [cstep_not_mem cfg false C O ch c h]
    by_cases hsat : ((cfg.links c).foldl (link_step false O) (C, true, ch)).2.1
    · rw [if_pos hsat]
      exact link_fold_no_deps O (cfg.links c) C true ch
    · rw [if_neg hsat]
      exact link_fold_no_deps O (cfg.links c) C true ch

theorem cstep_ordered_shape (cfg : Config) (aD : Bool) (C O : List Nat)
    (ch : Bool) (c : Nat) :
    (container_step cfg aD (C, O, ch) c).2.1 = O ∨
      ((container_step cfg aD (C, O, ch) c).2.1 = O ++ [c] ∧ c ∉ O) := by
  by_cases h : c ∈ O
  · rw [cstep_skip cfg aD C O ch c h]
    exact Or.inl rfl
  · rw [cstep_not_mem cfg aD C O ch c h]
    by_cases hsat : ((cfg.links c).foldl (link_step aD O) (C, true, ch)).2.1
    · rw [if_pos hsat]
      exact Or.inr ⟨rfl, h⟩
    · rw [if_neg hsat]
      exact Or.inl rfl

theorem cstep_changed_of (cfg : Config) (aD : Bool) (C O : List Nat) (c : Nat) :
    (container_step cfg aD (C, O, true) c).2.2 = true := by
  by_cases h : c ∈ O
  · rw [cstep_skip cfg aD C O true c h]
  · rw [cstep_not_mem cfg aD C O true c h]
    by_cases hsat : ((cfg.links c).foldl (link_step aD O) (C, true, true)).2.1
    · rw [if_pos hsat]
    · rw [if_neg hsat]
      exact link_fold_changed_of aD O (cfg.links c) C true

theorem cstep_unchanged (cfg : Config) (aD : Bool) (C O : List Nat)
    (ch : Bool) (c : Nat)
    (h : (container_step cfg aD (C, O, ch) c).2.2 = false) :
    container_step cfg aD (C, O, ch) c = (C, O, ch) ∧ ch = false := by
  by_cases hm : c ∈ O
  · rw [cstep_skip cfg aD C O ch c hm] at h ⊢
    exact ⟨rfl, h⟩
  · rw [cstep_not_mem cfg aD C O ch c hm] at h ⊢
    by_cases hsat : ((cfg.links c).foldl (link_step aD O) (C, true, ch)).2.1
    · rw [if_pos hsat] at h
      cases h
    · rw [if_neg hsat] at h ⊢
      rcases link_fold_unchanged aD O (cfg.links c) C true ch h with ⟨h1, h2⟩
      subst h2
      rw [h1, h]
      exact ⟨rfl, rfl⟩

theorem cstep_changed_grow (cfg : Config) (aD : Bool) (C O : List Nat)
    (c : Nat) (h : (container_step cfg aD (C, O, false) c).2.2 = true) :
    C.length + O.length <
      (container_step cfg aD (C, O, false) c).1.length +
        (container_step cfg aD (C, O, false) c).2.1.length := by
  by_cases hm : c ∈ O
  · rw [cstep_skip cfg aD C O false c hm] at h
    cases h
  · rw [cstep_not_mem cfg aD C O false c hm] at h ⊢
    by_cases hsat : ((cfg.links c).foldl (link_step aD O) (C, true, false)).2.1
    · rw [if_pos hsat]
      rcases link_fold_shape aD O (cfg.links c) C true false with ⟨t, h1, _, _, _⟩
      simp only [h1, List.length_append, List.length_singleton]
      omega
    · rw [if_neg hsat] at h ⊢
      dsimp only at h ⊢
      have := link_fold_changed_grow aD O (cfg.links c) C true h
      omega

theorem cstep_nodup (cfg : Config) (aD : Bool) (C O : List Nat) (ch : Bool)
    (c : Nat) (h : O.Nodup) :
    (container_step cfg aD (C, O, ch) c).2.1.Nodup := by
  rcases cstep_ordered_shape cfg aD C O ch c with h1 | ⟨h1, h2⟩
  · rw [h1]; exact h
  · rw [h1]
    rw [List.nodup_append]
    exact ⟨h, List.nodup_singleton c,
      fun x hx hx2 => h2 (by rwa [List.mem_singleton.mp hx2] at hx)⟩

theorem cstep_ordered_mem (cfg : Config) (aD : Bool) (C O : List Nat)
    (ch : Bool) (c : Nat) :
    ∀ x ∈ (container_step cfg aD (C, O, ch) c).2.1, x ∈ O ∨ x = c := by
  rcases cstep_ordered_shape cfg aD C O ch c with h1 | ⟨h1, _⟩
  · rw [h1]; exact fun x hx => Or.inl hx
  · rw [h1]
    intro x hx
    rcases List.mem_append.mp hx with hx2 | hx2
    · exact Or.inl hx2
    · exact Or.inr (List.mem_singleton.mp hx2)

theorem cstep_topo (cfg : Config) (aD : Bool) (C O : List Nat) (ch : Bool)
    (c : Nat) (htopo : TopoInv cfg aD C O) :
    TopoInv cfg aD (container_step cfg aD (C, O, ch) c).1
      (container_step cfg aD (C, O, ch) c).2.1 := by
  have hcond_convert : ∀ (C2 : List Nat), (aD = false → C2 = C) →
      ∀ l : Nat, (aD = true ∨ l ∈ C2) → (aD = true ∨ l ∈ C) := by
    intro C2 hC2 l hl
    by_cases haD : aD = true
    · exact Or.inl haD
    · have haD2 : aD = false := by
        simpa using haD
      rcases hl with habs | hmem
      · exact absurd habs haD
      · exact Or.inr ((hC2 haD2) ▸ hmem)
  by_cases hm : c ∈ O
  · rw [cstep_skip cfg aD C O ch c hm]
    exact htopo
  · rw [cstep_not_mem cfg aD C O ch c hm]
    have hC2 : aD = false →
        ((cfg.links c).foldl (link_step aD O) (C, true, ch)).1 = C := by
      intro haD
      subst haD
      exact link_fold_no_deps O (cfg.links c) C true ch
    by_cases hsat : ((cfg.links c).foldl (link_step aD O) (C, true, ch)).2.1
    · rw [if_pos hsat]
      intro i hi l hl hcnd
      have hcnd2 := hcond_convert _ hC2 l hcnd
      have hilen : i < O.length + 1 := by
        simpa using hi
      by_cases hio : i < O.length
      · have hget : (O ++ [c]).get ⟨i, hi⟩ = O.get ⟨i, hio⟩ := by
          simp only [List.get_eq_getElem]
          exact List.getElem_append_left hio
        rw [hget] at hl
        have := htopo i hio l hl hcnd2
        rw [List.take_append_of_le_length (Nat.le_of_lt hio)]
        exact this
      · have hieq : i = O.length := by omega
        subst hieq
        have hget : (O ++ [c]).get ⟨O.length, hi⟩ = c := by
          simp only [List.get_eq_getElem]
          rw [List.getElem_append_right (Nat.le_refl _)]
          simp
        rw [hget] at hl
        rw [List.take_left]
        exact link_fold_sat_links aD O (cfg.links c) C true ch hsat l hl hcnd2
    · rw [if_neg hsat]
      intro i hi l hl hcnd
      exact htopo i hi l hl (hcond_convert _ hC2 l hcnd)

/-- Pointwise order on the pass state: containers and ordering only grow, the changed flag only flips to true. -/
def StLe (st st2 : List Nat × List Nat × Bool) : Prop :=
  st.1 <+: st2.1 ∧ st.2.1 <+: st2.2.1 ∧ (st.2.2 = true → st2.2.2 = true)

theorem stle_refl (st : List Nat × List Nat × Bool) : StLe st st :=
  ⟨List.prefix_refl _, List.prefix_refl _, fun h => h⟩

theorem stle_trans {a b c : List Nat × List Nat × Bool}
    (h1 : StLe a b) (h2 : StLe b c) : StLe a c :=
  ⟨h1.1.trans h2.1, h1.2.1.trans h2.2.1, fun h => h2.2.2 (h1.2.2 h)⟩

theorem stle_antisymm {a b : List Nat × List Nat × Bool}
    (h1 : StLe a b) (h2 : StLe b a) : a = b := by
  rcases a with ⟨a1, a2, a3⟩
  rcases b with ⟨b1, b2, b3⟩
  have e1 : a1 = b1 := h1.1.eq_of_length_le h2.1.length_le
  have e2 : a2 = b2 := h1.2.1.eq_of_length_le h2.2.1.length_le
  have e3 : a3 = b3 := by
    cases ha : a3 <;> cases hb : b3
    · rfl
    · have := h2.2.2 hb
      simp only at this
      rw [ha] at this
      cases this
    · have := h1.2.2 ha
      simp only at this
      rw [hb] at this
      cases this
    · rfl
  rw [e1, e2, e3]

theorem cstep_le (cfg : Config) (aD : Bool) (st : List Nat × List Nat × Bool)
    (c : Nat) : StLe st (container_step cfg aD st c) := by
  rcases st with ⟨C, O, ch⟩
  refine ⟨?_, ?_, ?_⟩
  · rcases cstep_containers_shape cfg aD C O ch c with ⟨t, h1, _, _, _⟩
    exact ⟨t, h1.symm⟩
  · rcases cstep_ordered_shape cfg aD C O ch c with h1 | ⟨h1, _⟩
    · rw [h1]
    · rw [h1]
      exact ⟨[c], rfl⟩
  · intro h
    simp only at h
    subst h
    exact cstep_changed_of cfg aD C O c

theorem pass_le (cfg : Config) (aD : Bool) :
    ∀ (S : List Nat) (st : List Nat × List Nat × Bool),
      StLe st (S.foldl (container_step cfg aD) st) := by
  intro S
  induction S with
  | nil => intro st; exact stle_refl st
  | cons c S ih =>
    intro st
    rw [List.foldl_cons]
    exact stle_trans (cstep_le cfg aD st c) (ih _)

theorem pass_unchanged (cfg : Config) (aD : Bool) :
    ∀ (S : List Nat) (st : List Nat × List Nat × Bool),
      (S.foldl (container_step cfg aD) st).2.2 = false →
      S.foldl (container_step cfg aD) st = st ∧ st.2.2 = false := by
  intro S
  induction S with
  | nil => intro st h; exact ⟨rfl, h⟩
  | cons c S ih =>
    intro st h
    rw [List.foldl_cons] at h ⊢
    rcases ih _ h with ⟨h1, h2⟩
    rcases st with ⟨C, O, ch⟩
    rcases cstep_unchanged cfg aD C O ch c h2 with ⟨h3, h4⟩
    rw [h3] at h1 ⊢
    exact ⟨h1, h4⟩

theorem pass_fix_steps (cfg : Config) (aD : Bool) :
    ∀ (S : List Nat) (st : List Nat × List Nat × Bool),
      S.foldl (container_step cfg aD) st = st →
      ∀ c ∈ S, container_step cfg aD st c = st := by
  intro S
  induction S with
  | nil => intro st _ c hc; cases hc
  | cons c S ih =>
    intro st h
    rw [List.foldl_cons] at h
    have hle1 : StLe st (container_step cfg aD st c) := cstep_le cfg aD st c
    have hle2 : StLe (container_step cfg aD st c) st := by
      have := pass_le cfg aD S (container_step cfg aD st c)
      rwa [h] at this
    have heq : st = container_step cfg aD st c := stle_antisymm hle1 hle2
    intro d hd
    rcases List.mem_cons.mp hd with rfl | hd2
    · exact heq.symm
    · rw [← heq] at h
      exact ih st h d hd2

theorem pass_changed_grow (cfg : Config) (aD : Bool) :
    ∀ (S : List Nat) (st : List Nat × List Nat × Bool),
      st.2.2 = false →
      (S.foldl (container_step cfg aD) st).2.2 = true →
      st.1.length + st.2.1.length <
        (S.foldl (container_step cfg aD) st).1.length +
          (S.foldl (container_step cfg aD) st).2.1.length := by
  intro S
  induction S with
  | nil =>
    intro st h1 h2
    rw [List.foldl_nil] at h2
    rw [h1] at h2
    cases h2
  | cons c S ih =>
    intro st h1 h2
    rw [List.foldl_cons] at h2 ⊢
    rcases st with ⟨C, O, ch⟩
    simp only at h1
    subst h1
    by_cases hst : (container_step cfg aD (C, O, false) c).2.2
    · have hgrow := cstep_changed_grow cfg aD C O c hst
      have hle := pass_le cfg aD S (container_step cfg aD (C, O, false) c)
      have hl1 := hle.1.length_le
      have hl2 := hle.2.1.length_le
      change C.length + O.length < _
      omega
    · have hb : (container_step cfg aD (C, O, false) c).2.2 = false := by
        cases hv : (container_step cfg aD (C, O, false) c).2.2
        · rfl
        · exact absurd hv hst
      rcases cstep_unchanged cfg aD C O false c hb with ⟨h3, _⟩
      rw [h3] at h2 ⊢
      exact ih (C, O, false) rfl h2

theorem pass_nodup (cfg : Config) (aD : Bool) :
    ∀ (S : List Nat) (st : List Nat × List Nat × Bool),
      st.2.1.Nodup → (S.foldl (container_step cfg aD) st).2.1.Nodup := by
  intro S
  induction S with
  | nil => intro st h; exact h
  | cons c S ih =>
    intro st h
    rw [List.foldl_cons]
    rcases st with ⟨C, O, ch⟩
    exact ih _ (cstep_nodup cfg aD C O ch c h)

theorem pass_ordered_mem (cfg : Config) (aD : Bool) :
    ∀ (S : List Nat) (st : List Nat × List Nat × Bool),
      ∀ x ∈ (S.foldl (container_step cfg aD) st).2.1,
        x ∈ st.2.1 ∨ x ∈ S := by
  intro S
  induction S with
  | nil => intro st x hx; exact Or.inl hx
  | cons c S ih =>
    intro st x hx
    rw [List.foldl_cons] at hx
    rcases st with ⟨C, O, ch⟩
    rcases ih _ x hx with h1 | h1
    · rcases cstep_ordered_mem cfg aD C O ch c x h1 with h2 | h2
      · exact Or.inl h2
      · exact Or.inr (h2 ▸ List.mem_cons_self c S)
    · exact Or.inr (List.mem_cons_of_mem c h1)

theorem pass_containers_shape (cfg : Config) (aD : Bool) :
    ∀ (S : List Nat) (st : List Nat × List Nat × Bool),
      ∃ t, (S.foldl (container_step cfg aD) st).1 = st.1 ++ t ∧ t.Nodup ∧
        (∀ x ∈ t, x ∉ st.1) ∧ (∀ x ∈ t, ∃ c ∈ S, x ∈ cfg.links c) := by
  intro S
  induction S with
  | nil => intro st; exact ⟨[], by simp⟩
  | cons c S ih =>
    intro st
    rw [List.foldl_cons]
    rcases st with ⟨C, O, ch⟩
    rcases cstep_containers_shape cfg aD C O ch c with ⟨t1, e1, nd1, nm1, src1⟩
    rcases ih (container_step cfg aD (C, O, ch) c) with ⟨t2, e2, nd2, nm2, src2⟩
    refine ⟨t1 ++ t2, ?_, ?_, ?_, ?_⟩
    · rw [e2, e1, List.append_assoc]
    · rw [List.nodup_append]
      refine ⟨nd1, nd2, ?_⟩
      intro x hx1 hx2
      exact nm2 x hx2 (e1 ▸ List.mem_append_right C hx1)
    · intro x hx
      rcases List.mem_append.mp hx with h1 | h1
      · exact nm1 x h1
      · intro hxC
        exact nm2 x h1 (e1 ▸ List.mem_append_left t1 hxC)
    · intro x hx
      rcases List.mem_append.mp hx with h1 | h1
      · exact ⟨c, List.mem_cons_self c S, src1 x h1⟩
      · rcases src2 x h1 with ⟨d, hd, hxd⟩
        exact ⟨d, List.mem_cons_of_mem c hd, hxd⟩

theorem pass_no_deps (cfg : Config) :
    ∀ (S : List Nat) (st : List Nat × List Nat × Bool),
      (S.foldl (container_step cfg false) st).1 = st.1 := by
  intro S
  induction S with
  | nil => intro st; rfl
  | cons c S ih =>
    intro st
    rw [List.foldl_cons]
    rcases st with ⟨C, O, ch⟩
    rw [ih _]
    have h := cstep_no_deps cfg C O ch c
    rcases cstep_ordered_shape cfg false C O ch c with h1 | ⟨h1, _⟩ <;>
      exact h

theorem pass_ordered_sub (cfg : Config) (aD : Bool) :
    ∀ (S : List Nat) (st : List Nat × List Nat × Bool),
      (∀ x ∈ st.2.1, x ∈ st.1) → (∀ c ∈ S, c ∈ st.1) →
      ∀ x ∈ (S.foldl (container_step cfg aD) st).2.1,
        x ∈ (S.foldl (container_step cfg aD) st).1 := by
  intro S
  induction S with
  | nil => intro st h _ x hx; exact h x hx
  | cons c S ih =>
    intro st hsub hS
    rw [List.foldl_cons]
    rcases st with ⟨C, O, ch⟩
    have hle := cstep_le cfg aD (C, O, ch) c
    refine ih _ ?_ ?_
    · intro x hx
      rcases cstep_ordered_mem cfg aD C O ch c x hx with h1 | h1
      · exact hle.1.subset (hsub x h1)
      · exact hle.1.subset (h1 ▸ hS c (List.mem_cons_self c S))
    · intro d hd
      exact hle.1.subset (hS d (List.mem_cons_of_mem c hd))

theorem pass_topo (cfg : Config) (aD : Bool) :
    ∀ (S : List Nat) (st : List Nat × List Nat × Bool),
      TopoInv cfg aD st.1 st.2.1 →
      TopoInv cfg aD (S.foldl (container_step cfg aD) st).1
        (S.foldl (container_step cfg aD) st).2.1 := by
  intro S
  induction S with
  | nil => intro st h; exact h
  | cons c S ih =>
    intro st h
    rw [List.foldl_cons]
    rcases st with ⟨C, O, ch⟩
    exact ih _ (cstep_topo cfg aD C O ch c h)

theorem cstep_complete_witness (cfg : Config) (aD : Bool) (C O : List Nat)
    (c : Nat) (h : container_step cfg aD (C, O, false) c = (C, O, false))
    (hc : c ∉ O) : ∃ l ∈ cfg.links c, l ∈ C ∧ l ∉ O := by
  rw [cstep_not_mem cfg aD C O false c hc] at h
  by_cases hsat : ((cfg.links c).foldl (link_step aD O) (C, true, false)).2.1
  · rw [if_pos hsat] at h
    have : (true : Bool) = false := congrArg (fun p => p.2.2) h
    cases this
  · rw [if_neg hsat] at h
    have hch : ((cfg.links c).foldl (link_step aD O) (C, true, false)).2.2 =
        false := congrArg (fun p => p.2.2) h
    have hsatf : ((cfg.links c).foldl (link_step aD O) (C, true, false)).2.1 =
        false := by
      cases hv : ((cfg.links c).foldl (link_step aD O) (C, true, false)).2.1
      · rfl
      · exact absurd hv hsat
    rcases link_fold_sat_false aD O (cfg.links c) C true false hsatf hch with
      habs | hwit
    · cases habs
    · exact hwit

/--
Shape of the evolving `containers` list: the original argument followed by
the links appended by `add_dependencies`, which are pairwise distinct, new,
and drawn from the configured containers.
-/
def CGood (cfg : Config) (inp C : List Nat) : Prop :=
  ∃ t, C = inp ++ t ∧ t.Nodup ∧ (∀ x ∈ t, x ∉ inp) ∧
    (∀ x ∈ t, x ∈ cfg.containers)

theorem cgood_length_le {cfg : Config} {inp C : List Nat}
    (h : CGood cfg inp C) : C.length ≤ inp.length + cfg.containers.length := by
  rcases h with ⟨t, e, nd, _, hsub⟩
  have := (nd.subperm hsub).length_le
  rw [e, List.length_append]
  omega

theorem nodup_length_le {l cs : List Nat} (h : l.Nodup) (hs : ∀ x ∈ l, x ∈ cs) :
    l.length ≤ cs.length :=
  (h.subperm hs).length_le

theorem order_loop_spec (cfg : Config) (aD : Bool) (inp : List Nat)
    (hlinks : ∀ c ∈ cfg.containers, ∀ l ∈ cfg.links c, l ∈ cfg.containers) :
    ∀ (fuel : Nat) (C O : List Nat),
      CGood cfg inp C →
      O.Nodup → (∀ x ∈ O, x ∈ C) → (∀ x ∈ C, x ∈ cfg.containers) →
      TopoInv cfg aD C O →
      inp.length + 2 * cfg.containers.length + 1 ≤ fuel + C.length + O.length →
      ∃ C2 O2,
        order_loop cfg aD fuel C O = O2 ∧
        CGood cfg inp C2 ∧ O2.Nodup ∧ (∀ x ∈ O2, x ∈ C2) ∧
        (∀ x ∈ C2, x ∈ cfg.containers) ∧ TopoInv cfg aD C2 O2 ∧
        C <+: C2 ∧ O <+: O2 ∧
        order_pass cfg aD C2 (C2, O2, false) = (C2, O2, false) ∧
        (aD = false → C2 = C) := by
  intro fuel
  induction fuel with
  | zero =>
    intro C O hC hnd hOC hCcfg _ hfuel
    exfalso
    have h1 : C.length ≤ inp.length + cfg.containers.length := cgood_length_le hC
    have h2 : O.length ≤ cfg.containers.length :=
      nodup_length_le hnd (fun x hx => hCcfg x (hOC x hx))
    omega
  | succ fuel ih =>
    intro C O hC hnd hOC hCcfg htopo hfuel
    show ∃ C2 O2, (let r := order_pass cfg aD C (C, O, false);
      if r.2.2 then order_loop cfg aD fuel r.1 r.2.1 else r.2.1) = O2 ∧ _
    by_cases hch : (order_pass cfg aD C (C, O, false)).2.2
    · simp only [hch, if_true]
      have hgrow := pass_changed_grow cfg aD C (C, O, false) rfl hch
      rcases pass_containers_shape cfg aD C (C, O, false) with ⟨t, e1, nd1, nm1, src1⟩
      have e1o : (order_pass cfg aD C (C, O, false)).1 = C ++ t := e1
      have htcfg : ∀ x ∈ t, x ∈ cfg.containers := by
        intro x hx
        rcases src1 x hx with ⟨c, hc, hxc⟩
        exact hlinks c (hCcfg c hc) x hxc
      have hC2 : CGood cfg inp (order_pass cfg aD C (C, O, false)).1 := by
        rcases hC with ⟨t0, e0, nd0, nm0, hsub0⟩
        refine ⟨t0 ++ t, ?_, ?_, ?_, ?_⟩
        · rw [e1o, e0, List.append_assoc]
        · rw [List.nodup_append]
          refine ⟨nd0, nd1, ?_⟩
          intro x hx0 hxt
          exact nm1 x hxt (by rw [e0]; exact List.mem_append_right inp hx0)
        · intro x hx
          rcases List.mem_append.mp hx with h1 | h1
          · exact nm0 x h1
          · intro hxi
            exact nm1 x h1 (by rw [e0]; exact List.mem_append_left t0 hxi)
        · intro x hx
          rcases List.mem_append.mp hx with h1 | h1
          · exact hsub0 x h1
          · exact htcfg x h1
      have hnd2 : (order_pass cfg aD C (C, O, false)).2.1.Nodup :=
        pass_nodup cfg aD C (C, O, false) hnd
      have hOC2 : ∀ x ∈ (order_pass cfg aD C (C, O, false)).2.1,
          x ∈ (order_pass cfg aD C (C, O, false)).1 :=
        pass_ordered_sub cfg aD C (C, O, false) hOC (fun c hc => hc)
      have hCcfg2 : ∀ x ∈ (order_pass cfg aD C (C, O, false)).1,
          x ∈ cfg.containers := by
        intro x hx
        rw [e1o] at hx
        rcases List.mem_append.mp hx with h1 | h1
        · exact hCcfg x h1
        · exact htcfg x h1
      have htopo2 := pass_topo cfg aD C (C, O, false) htopo
      have hgrow2 : C.length + O.length <
          (order_pass cfg aD C (C, O, false)).1.length +
            (order_pass cfg aD C (C, O, false)).2.1.length := hgrow
      have hfuel2 : inp.length + 2 * cfg.containers.length + 1 ≤
          fuel + (order_pass cfg aD C (C, O, false)).1.length +
            (order_pass cfg aD C (C, O, false)).2.1.length := by
        omega
      rcases ih (order_pass cfg aD C (C, O, false)).1
        (order_pass cfg aD C (C, O, false)).2.1 hC2 hnd2 hOC2 hCcfg2 htopo2
        hfuel2 with ⟨C2, O2, hrun, p1, p2, p3, p4, p5, p6, p7, p8, p9⟩
      refine ⟨C2, O2, ?_, p1, p2, p3, p4, p5, ?_, ?_, p8, ?_⟩
      · exact hrun
      · exact List.IsPrefix.trans ⟨t, e1.symm⟩ p6
      · exact ((pass_le cfg aD C (C, O, false)).2.1).trans p7
      · intro haD
        rw [p9 haD]
        subst haD
        exact pass_no_deps cfg C (C, O, false)
    · have hchf : (order_pass cfg aD C (C, O, false)).2.2 = false := by
        cases hv : (order_pass cfg aD C (C, O, false)).2.2
        · rfl
        · exact absurd hv hch
      rcases pass_unchanged cfg aD C (C, O, false) hchf with ⟨hfix, -⟩
      simp only [hchf, if_false]
      refine ⟨C, O, ?_, hC, hnd, hOC, hCcfg, htopo,
        List.prefix_refl C, List.prefix_refl O, ?_, fun _ => rfl⟩
      · show (List.foldl (container_step cfg aD) (C, O, false) C).2.1 = O
        rw [hfix]
      · show List.foldl (container_step cfg aD) (C, O, false) C = (C, O, false)
        exact hfix

theorem mem_take_indexOf_lt :
    ∀ (l : List Nat) (i : Nat) (a : Nat), a ∈ l.take i → l.indexOf a < i := by
  intro l
  induction l with
  | nil =>
    intro i a h
    rw [List.take_nil] at h
    cases h
  | cons x t ih =>
    intro i a h
    cases i with
    | zero => cases h
    | succ j =>
      rw [List.take_succ_cons] at h
      rcases List.mem_cons.mp h with rfl | h2
      · rw [List.indexOf_cons_self]
        exact Nat.succ_pos j
      · by_cases hax : x = a
        · rw [List.indexOf_cons_eq t hax]
          exact Nat.succ_pos j
        · rw [List.indexOf_cons_ne t hax]
          exact Nat.succ_lt_succ (ih j a h2)

theorem check_config_go_links (cfg : Config) :
    ∀ (l seen : List Nat), check_config_go cfg seen l = true →
      ∀ i (hi : i < l.length), ∀ lk ∈ cfg.links (l.get ⟨i, hi⟩),
        lk ∈ seen ++ l.take i := by
  intro l
  induction l with
  | nil => intro seen _ i hi; cases hi
  | cons c rest ih =>
    intro seen h i hi lk hlk
    simp only [check_config_go] at h
    by_cases hc : c ∈ seen
    · rw [if_pos hc] at h; cases h
    · rw [if_neg hc] at h
      by_cases hl : (cfg.links c).all (fun l => decide (l ∈ seen))
      · rw [if_pos hl] at h
        cases i with
        | zero =>
          simp only [List.get_eq_getElem, List.getElem_cons_zero] at hlk
          have := List.all_eq_true.mp hl lk hlk
          have hmem : lk ∈ seen := of_decide_eq_true this
          rw [List.take_zero, List.append_nil]
          exact hmem
        | succ j =>
          have hj : j < rest.length := by
            simpa using hi
          have hget : (c :: rest).get ⟨j + 1, hi⟩ = rest.get ⟨j, hj⟩ := rfl
          rw [hget] at hlk
          have := ih (seen ++ [c]) h j hj lk hlk
          rw [List.take_succ_cons]
          rw [List.append_assoc, List.singleton_append] at this
          exact this
      · rw [if_neg hl] at h; cases h

theorem wf_rank (cfg : Config)
    (hcheck : check_config cfg cfg.containers = true) :
    ∀ c ∈ cfg.containers, ∀ l ∈ cfg.links c,
      l ∈ cfg.containers ∧
        cfg.containers.indexOf l < cfg.containers.indexOf c := by
  intro c hc l hl
  have hj : cfg.containers.indexOf c < cfg.containers.length :=
    List.indexOf_lt_length.mpr hc
  have hget : cfg.containers.get ⟨cfg.containers.indexOf c, hj⟩ = c :=
    List.indexOf_get hj
  have := check_config_go_links cfg cfg.containers [] hcheck
    (cfg.containers.indexOf c) hj l (by rw [hget]; exact hl)
  rw [List.nil_append] at this
  exact ⟨List.take_subset _ _ this, mem_take_indexOf_lt _ _ l this⟩

theorem fixpoint_complete (cfg : Config) (aD : Bool) (C O : List Nat)
    (hrank : ∀ c ∈ cfg.containers, ∀ l ∈ cfg.links c,
      l ∈ cfg.containers ∧
        cfg.containers.indexOf l < cfg.containers.indexOf c)
    (hCsub : ∀ x ∈ C, x ∈ cfg.containers)
    (hfix : order_pass cfg aD C (C, O, false) = (C, O, false)) :
    ∀ c ∈ C, c ∈ O := by
  suffices H : ∀ k, ∀ c ∈ C, cfg.containers.indexOf c = k → c ∈ O by
    exact fun c hc => H _ c hc rfl
  intro k
  induction k using Nat.strong_induction_on with
  | _ k ihk =>
    intro c hc hk
    by_contra hno
    have hstep := pass_fix_steps cfg aD C (C, O, false) hfix c hc
    rcases cstep_complete_witness cfg aD C O c hstep hno with ⟨l, hl, hlC, hlO⟩
    rcases hrank c (hCsub c hc) l hl with ⟨-, hlt⟩
    rw [hk] at hlt
    exact hlO (ihk _ hlt l hlC rfl)

theorem pass_skip_all (cfg : Config) (aD : Bool) :
    ∀ (S : List Nat) (st : List Nat × List Nat × Bool),
      (∀ c ∈ S, c ∈ st.2.1) → S.foldl (container_step cfg aD) st = st := by
  intro S
  induction S with
  | nil => intro st _; rfl
  | cons c S ih =>
    intro st h
    rw [List.foldl_cons]
    rcases st with ⟨C, O, ch⟩
    rw [cstep_skip cfg aD C O ch c (h c (List.mem_cons_self c S))]
    exact ih _ (fun d hd => h d (List.mem_cons_of_mem c hd))

theorem pass_build (cfg : Config) (aD : Bool) (L E : List Nat)
    (hnd : L.Nodup)
    (hT : ∀ i (hi : i < L.length), ∀ l ∈ cfg.links (L.get ⟨i, hi⟩),
      l ∈ L ++ E → l ∈ L.take i)
    (hclosed : aD = true → ∀ c ∈ L, ∀ l ∈ cfg.links c, l ∈ L ++ E) :
    ∀ (S P : List Nat) (ch : Bool), L = P ++ S →
      S.foldl (container_step cfg aD) (L ++ E, P, ch) =
        (L ++ E, L, ch || !S.isEmpty) := by
  intro S
  induction S with
  | nil =>
    intro P ch hsplit
    rw [List.append_nil] at hsplit
    subst hsplit
    simp
  | cons c S ih =>
    intro P ch hsplit
    have hcL : c ∈ L := by
      rw [hsplit]
      exact List.mem_append_right P (List.mem_cons_self c S)
    have hcP : c ∉ P := by
      intro hmem
      have := hsplit ▸ hnd
      rw [List.nodup_append] at this
      exact this.2.2 hmem (List.mem_cons_self c S)
    rw [List.foldl_cons]
    have hfold : (cfg.links c).foldl (link_step aD P) (L ++ E, true, ch) =
        (L ++ E, true, ch) := by
      apply link_fold_fixed
      · intro l hl hlC
        have hi : P.length < L.length := by
          rw [hsplit, List.length_append]
          simp
        have hget : L.get ⟨P.length, hi⟩ = c := by
          simp only [List.get_eq_getElem]
          rw [List.getElem_of_eq hsplit hi]
          rw [List.getElem_append_right (Nat.le_refl _)]
          simp
        have htake : L.take P.length = P := by
          rw [hsplit]
          exact List.take_left P (c :: S)
        have := hT P.length hi l (by rw [hget]; exact hl) hlC
        rwa [htake] at this
      · intro haD l hl
        exact hclosed haD c hcL l hl
    have hstep : container_step cfg aD (L ++ E, P, ch) c =
        (L ++ E, P ++ [c], true) := by
      rw [cstep_not_mem cfg aD (L ++ E) P ch c hcP]
      rw [hfold]
      simp
    rw [hstep]
    have := ih (P ++ [c]) true (by rw [hsplit, List.append_assoc]; rfl)
    rw [this]
    simp

theorem order_loop_succ_eq (cfg : Config) (aD : Bool) (fuel : Nat)
    (C O : List Nat) :
    order_loop cfg aD (fuel + 1) C O =
      (if (order_pass cfg aD C (C, O, false)).2.2 then
        order_loop cfg aD fuel (order_pass cfg aD C (C, O, false)).1
          (order_pass cfg aD C (C, O, false)).2.1
      else (order_pass cfg aD C (C, O, false)).2.1) := rfl

theorem order_loop_self (cfg : Config) (aD : Bool) (L E : List Nat)
    (hnd : L.Nodup)
    (hT : ∀ i (hi : i < L.length), ∀ l ∈ cfg.links (L.get ⟨i, hi⟩),
      l ∈ L ++ E → l ∈ L.take i)
    (hclosed : aD = true → ∀ c ∈ L, ∀ l ∈ cfg.links c, l ∈ L ++ E)
    (hE : ∀ x ∈ E, x ∈ L) :
    ∀ (fuel : Nat), 2 ≤ fuel → order_loop cfg aD fuel (L ++ E) [] = L := by
  intro fuel hfuel
  rcases fuel with _ | _ | f
  · omega
  · omega
  · have hpass1 : order_pass cfg aD (L ++ E) (L ++ E, [], false) =
        (L ++ E, L, !L.isEmpty) := by
      show (L ++ E).foldl (container_step cfg aD) (L ++ E, [], false) = _
      rw [List.foldl_append]
      rw [pass_build cfg aD L E hnd hT hclosed L [] false rfl]
      rw [pass_skip_all cfg aD E (L ++ E, L, false || !L.isEmpty) hE]
      rw [Bool.false_or]
    rw [order_loop_succ_eq, hpass1]
    dsimp only
    rcases L with _ | ⟨a, L0⟩
    · simp
    · simp only [List.isEmpty_cons, Bool.not_false, if_true]
      have hpass2 : order_pass cfg aD ((a :: L0) ++ E)
          ((a :: L0) ++ E, a :: L0, false) =
          ((a :: L0) ++ E, a :: L0, false) := by
        apply pass_skip_all
        intro c hc
        rcases List.mem_append.mp hc with h1 | h1
        · exact h1
        · exact hE c h1
      rw [order_loop_succ_eq, hpass2]
      dsimp only
      simp

/--
C1: on a well-formed configuration (backward-only links, no duplicate
entries — which is what `check_config` enforces and what makes the graph
acyclic), `ordered_by_dependency` over the full container list with
`add_dependencies` returns a permutation of that list (in fact the list
itself) in which every container appears strictly after every container
in its links.
-/
theorem claim1_full_list_topological (cfg : Config) (fuel : Nat)
    (hwf : check_config cfg cfg.containers = true) (hfuel : 2 ≤ fuel) :
    (ordered_by_dependency cfg cfg.containers true false fuel).Perm
      cfg.containers ∧
    ∀ i (hi : i <
        (ordered_by_dependency cfg cfg.containers true false fuel).length),
      ∀ l ∈ cfg.links
          ((ordered_by_dependency cfg cfg.containers true false fuel).get
            ⟨i, hi⟩),
        l ∈ (ordered_by_dependency cfg cfg.containers true false fuel).take
          i := by
  have hnd : cfg.containers.Nodup := by
    have := check_config_go_nodup cfg cfg.containers [] List.nodup_nil hwf
    simpa using this
  have hlinks := check_config_go_links cfg cfg.containers [] hwf
  have hT : ∀ i (hi : i < cfg.containers.length),
      ∀ l ∈ cfg.links (cfg.containers.get ⟨i, hi⟩),
        l ∈ cfg.containers ++ [] → l ∈ cfg.containers.take i := by
    intro i hi l hl _
    have := hlinks i hi l hl
    rwa [List.nil_append] at this
  have hclosed : (true : Bool) = true →
      ∀ c ∈ cfg.containers, ∀ l ∈ cfg.links c, l ∈ cfg.containers ++ [] := by
    intro _ c hc l hl
    have hj : cfg.containers.indexOf c < cfg.containers.length :=
      List.indexOf_lt_length.mpr hc
    have hget : cfg.containers.get ⟨cfg.containers.indexOf c, hj⟩ = c :=
      List.indexOf_get hj
    have := hlinks (cfg.containers.indexOf c) hj l (by rw [hget]; exact hl)
    rw [List.nil_append] at this
    rw [List.append_nil]
    exact List.take_subset _ _ this
  have hself := order_loop_self cfg true cfg.containers [] hnd hT hclosed
    (fun x hx => absurd hx (List.not_mem_nil x)) fuel hfuel
  rw [List.append_nil] at hself
  have heq : ordered_by_dependency cfg cfg.containers true false fuel =
      cfg.containers := hself
  rw [heq]
  refine ⟨List.Perm.refl _, ?_⟩
  intro i hi l hl
  have := hlinks i hi l hl
  rwa [List.nil_append] at this

/-- A small well-formed configuration: 1 and 2 link to 0. -/
def resolver_demo_config : Config :=
  { containers := [0, 1, 2]
    links := fun n => if n = 1 then [0] else if n = 2 then [0] else []
    name := fun n => toString n }

/-- Witness for C1 on the concrete demo configuration. -/
theorem claim1_witness :
    (check_config resolver_demo_config resolver_demo_config.containers =
      true) ∧
    (ordered_by_dependency resolver_demo_config
        resolver_demo_config.containers true false 2).Perm
      resolver_demo_config.containers :=
  ⟨by decide,
   (claim1_full_list_topological resolver_demo_config 2 (by decide)
     (by decide)).1⟩

theorem rev_fold_mem_skip (input : List Nat) (c : Nat) :
    ∀ (lks rev : List Nat) (ch : Bool), c ∈ rev →
      lks.foldl (rev_link_step input c) (rev, ch) = (rev, ch) := by
  intro lks
  induction lks with
  | nil => intro rev ch _; rfl
  | cons l lks ih =>
    intro rev ch hc
    rw [List.foldl_cons]
    by_cases hcond : l ∈ input ∨ l ∈ rev
    · have : rev_link_step input c (rev, ch) l = (rev, ch) := by
        simp [rev_link_step, hcond, hc]
      rw [this]
      exact ih rev ch hc
    · have : rev_link_step input c (rev, ch) l = (rev, ch) := by
        simp [rev_link_step, hcond]
      rw [this]
      exact ih rev ch hc

theorem rev_fold_shape (input : List Nat) (c : Nat) :
    ∀ (lks rev : List Nat) (ch : Bool),
      lks.foldl (rev_link_step input c) (rev, ch) = (rev, ch) ∨
        (lks.foldl (rev_link_step input c) (rev, ch) = (rev ++ [c], true) ∧
          c ∉ rev) := by
  intro lks
  induction lks with
  | nil => intro rev ch; exact Or.inl rfl
  | cons l lks ih =>
    intro rev ch
    rw [List.foldl_cons]
    by_cases hcond : l ∈ input ∨ l ∈ rev
    · by_cases hc : c ∈ rev
      · have : rev_link_step input c (rev, ch) l = (rev, ch) := by
          simp [rev_link_step, hcond, hc]
        rw [this]
        exact ih rev ch
      · have : rev_link_step input c (rev, ch) l = (rev ++ [c], true) := by
          simp [rev_link_step, hcond, hc]
        rw [this]
        have hin : c ∈ rev ++ [c] :=
          List.mem_append_right rev (List.mem_singleton.mpr rfl)
        rw [rev_fold_mem_skip input c lks (rev ++ [c]) true hin]
        exact Or.inr ⟨rfl, hc⟩
    · have : rev_link_step input c (rev, ch) l = (rev, ch) := by
        simp [rev_link_step, hcond]
      rw [this]
      exact ih rev ch

theorem rev_fold_unchanged (input : List Nat) (c : Nat) (lks rev : List Nat)
    (ch : Bool)
    (h : (lks.foldl (rev_link_step input c) (rev, ch)).2 = false) :
    lks.foldl (rev_link_step input c) (rev, ch) = (rev, ch) ∧ ch = false := by
  rcases rev_fold_shape input c lks rev ch with h1 | ⟨h1, _⟩
  · rw [h1] at h
    exact ⟨h1, h⟩
  · rw [h1] at h
    cases h

theorem rev_fold_fix_prop (input : List Nat) (c : Nat) (lks rev : List Nat)
    (ch : Bool)
    (h : (lks.foldl (rev_link_step input c) (rev, ch)).1 = rev) :
    ∀ l ∈ lks, (l ∈ input ∨ l ∈ rev) → c ∈ rev := by
  induction lks with
  | nil => intro l hl; cases hl
  | cons l0 lks ih =>
    rw [List.foldl_cons] at h
    by_cases hcond : l0 ∈ input ∨ l0 ∈ rev
    · by_cases hc : c ∈ rev
      · intro l _ _
        exact hc
      · exfalso
        have hstep : rev_link_step input c (rev, ch) l0 = (rev ++ [c], true) := by
          simp [rev_link_step, hcond, hc]
        rw [hstep] at h
        have hin : c ∈ rev ++ [c] :=
          List.mem_append_right rev (List.mem_singleton.mpr rfl)
        rw [rev_fold_mem_skip input c lks (rev ++ [c]) true hin] at h
        have h2 : rev ++ [c] = rev := h
        have : (rev ++ [c]).length = rev.length := by rw [h2]
        simp at this
    · have hstep : rev_link_step input c (rev, ch) l0 = (rev, ch) := by
        simp [rev_link_step, hcond]
      rw [hstep] at h
      intro l hl hcl
      rcases List.mem_cons.mp hl with rfl | hl2
      · exact absurd hcl hcond
      · exact ih h l hl2 hcl

theorem rev_fold_of_closed (input : List Nat) (c : Nat) :
    ∀ (lks rev : List Nat) (ch : Bool),
      (∀ l ∈ lks, (l ∈ input ∨ l ∈ rev) → c ∈ rev) →
      lks.foldl (rev_link_step input c) (rev, ch) = (rev, ch) := by
  intro lks
  induction lks with
  | nil => intro rev ch _; rfl
  | cons l lks ih =>
    intro rev ch hclosed
    rw [List.foldl_cons]
    by_cases hcond : l ∈ input ∨ l ∈ rev
    · have hc : c ∈ rev := hclosed l (List.mem_cons_self l lks) hcond
      have : rev_link_step input c (rev, ch) l = (rev, ch) := by
        simp [rev_link_step, hcond, hc]
      rw [this]
      exact ih rev ch (fun x hx => hclosed x (List.mem_cons_of_mem l hx))
    · have : rev_link_step input c (rev, ch) l = (rev, ch) := by
        simp [rev_link_step, hcond]
      rw [this]
      exact ih rev ch (fun x hx => hclosed x (List.mem_cons_of_mem l hx))

/-- Pointwise order on the reverse-scan state. -/
def RLe (a b : List Nat × Bool) : Prop :=
  a.1 <+: b.1 ∧ (a.2 = true → b.2 = true)

theorem rle_refl (a : List Nat × Bool) : RLe a a :=
  ⟨List.prefix_refl _, fun h => h⟩

theorem rle_trans {a b c : List Nat × Bool} (h1 : RLe a b) (h2 : RLe b c) :
    RLe a c :=
  ⟨h1.1.trans h2.1, fun h => h2.2 (h1.2 h)⟩

theorem rle_antisymm {a b : List Nat × Bool} (h1 : RLe a b) (h2 : RLe b a) :
    a = b := by
  rcases a with ⟨a1, a2⟩
  rcases b with ⟨b1, b2⟩
  have e1 : a1 = b1 := h1.1.eq_of_length_le h2.1.length_le
  have e2 : a2 = b2 := by
    cases ha : a2 <;> cases hb : b2
    · rfl
    · have := h2.2 hb
      simp only at this
      rw [ha] at this
      cases this
    · have := h1.2 ha
      simp only at this
      rw [hb] at this
      cases this
    · rfl
  rw [e1, e2]

theorem rev_g_le (input : List Nat) (c : Nat) (lks : List Nat)
    (st : List Nat × Bool) :
    RLe st (lks.foldl (rev_link_step input c) st) := by
  rcases st with ⟨rev, ch⟩
  rcases rev_fold_shape input c lks rev ch with h1 | ⟨h1, _⟩
  · rw [h1]
    exact rle_refl _
  · rw [h1]
    exact ⟨⟨[c], rfl⟩, fun _ => rfl⟩

theorem rev_pass_le (cfg : Config) (input : List Nat) :
    ∀ (cs : List Nat) (st : List Nat × Bool),
      RLe st (cs.foldl
        (fun st c => (cfg.links c).foldl (rev_link_step input c) st) st) := by
  intro cs
  induction cs with
  | nil => intro st; exact rle_refl st
  | cons c cs ih =>
    intro st
    rw [List.foldl_cons]
    exact rle_trans (rev_g_le input c (cfg.links c) st) (ih _)

theorem rev_pass_unchanged (cfg : Config) (input : List Nat) :
    ∀ (cs : List Nat) (st : List Nat × Bool),
      (cs.foldl
        (fun st c => (cfg.links c).foldl (rev_link_step input c) st) st).2 =
          false →
      cs.foldl
        (fun st c => (cfg.links c).foldl (rev_link_step input c) st) st = st ∧
        st.2 = false := by
  intro cs
  induction cs with
  | nil => intro st h; exact ⟨rfl, h⟩
  | cons c cs ih =>
    intro st h
    rw [List.foldl_cons] at h ⊢
    rcases ih _ h with ⟨h1, h2⟩
    rcases st with ⟨rev, ch⟩
    rcases rev_fold_unchanged input c (cfg.links c) rev ch h2 with ⟨h3, h4⟩
    rw [h3] at h1 ⊢
    exact ⟨h1, h4⟩

theorem rev_pass_fix_steps (cfg : Config) (input : List Nat) :
    ∀ (cs : List Nat) (st : List Nat × Bool),
      cs.foldl
        (fun st c => (cfg.links c).foldl (rev_link_step input c) st) st = st →
      ∀ c ∈ cs, (cfg.links c).foldl (rev_link_step input c) st = st := by
  intro cs
  induction cs with
  | nil => intro st _ c hc; cases hc
  | cons c cs ih =>
    intro st h
    rw [List.foldl_cons] at h
    have hle1 : RLe st ((cfg.links c).foldl (rev_link_step input c) st) :=
      rev_g_le input c (cfg.links c) st
    have hle2 : RLe ((cfg.links c).foldl (rev_link_step input c) st) st := by
      have := rev_pass_le cfg input cs
        ((cfg.links c).foldl (rev_link_step input c) st)
      rwa [h] at this
    have heq : st = (cfg.links c).foldl (rev_link_step input c) st :=
      rle_antisymm hle1 hle2
    intro d hd
    rcases List.mem_cons.mp hd with rfl | hd2
    · exact heq.symm
    · rw [← heq] at h
      exact ih st h d hd2

theorem rev_pass_closure (cfg : Config) (input : List Nat) (rev : List Nat)
    (h : rev_pass cfg input (rev, false) = (rev, false)) :
    ∀ c ∈ cfg.containers, ∀ l ∈ cfg.links c,
      (l ∈ input ∨ l ∈ rev) → c ∈ rev := by
  intro c hc
  have hstep := rev_pass_fix_steps cfg input cfg.containers (rev, false) h c hc
  intro l hl hcond
  exact rev_fold_fix_prop input c (cfg.links c) rev false
    (congrArg Prod.fst hstep) l hl hcond

theorem rev_pass_grow (cfg : Config) (input : List Nat) :
    ∀ (cs : List Nat) (st : List Nat × Bool),
      st.2 = false →
      (cs.foldl
        (fun st c => (cfg.links c).foldl (rev_link_step input c) st) st).2 =
          true →
      st.1.length <
        (cs.foldl
          (fun st c => (cfg.links c).foldl (rev_link_step input c) st)
            st).1.length := by
  intro cs
  induction cs with
  | nil =>
    intro st h1 h2
    rw [List.foldl_nil] at h2
    rw [h1] at h2
    cases h2
  | cons c cs ih =>
    intro st h1 h2
    rw [List.foldl_cons] at h2 ⊢
    rcases st with ⟨rev, ch⟩
    simp only at h1
    subst h1
    rcases rev_fold_shape input c (cfg.links c) rev false with h3 | ⟨h3, _⟩
    · rw [h3] at h2 ⊢
      exact ih (rev, false) rfl h2
    · rw [h3]
      have hle := rev_pass_le cfg input cs (rev ++ [c], true)
      have := hle.1.length_le
      simp only [List.length_append, List.length_singleton] at this ⊢
      omega

theorem rev_pass_shape (cfg : Config) (input : List Nat) :
    ∀ (cs : List Nat) (st : List Nat × Bool),
      (∀ c ∈ cs, c ∈ cfg.containers) →
      ∃ t, (cs.foldl
          (fun st c => (cfg.links c).foldl (rev_link_step input c) st) st).1 =
        st.1 ++ t ∧ t.Nodup ∧ (∀ x ∈ t, x ∉ st.1) ∧
        (∀ x ∈ t, x ∈ cfg.containers) := by
  intro cs
  induction cs with
  | nil => intro st _; exact ⟨[], by simp⟩
  | cons c cs ih =>
    intro st hcs
    rw [List.foldl_cons]
    rcases st with ⟨rev, ch⟩
    have hccfg : c ∈ cfg.containers := hcs c (List.mem_cons_self c cs)
    have hrest : ∀ d ∈ cs, d ∈ cfg.containers :=
      fun d hd => hcs d (List.mem_cons_of_mem c hd)
    rcases rev_fold_shape input c (cfg.links c) rev ch with h3 | ⟨h3, hnc⟩
    · rw [h3]
      exact ih (rev, ch) hrest
    · rw [h3]
      rcases ih (rev ++ [c], true) hrest with ⟨t, e1, nd1, nm1, hsub1⟩
      refine ⟨c :: t, ?_, ?_, ?_, ?_⟩
      · rw [e1, List.append_assoc, List.singleton_append]
      · refine List.nodup_cons.mpr ⟨?_, nd1⟩
        intro hct
        exact nm1 c hct (List.mem_append_right rev (List.mem_singleton.mpr rfl))
      · intro x hx
        rcases List.mem_cons.mp hx with rfl | hx2
        · exact hnc
        · intro hxrev
          exact nm1 x hx2 (List.mem_append_left [c] hxrev)
      · intro x hx
        rcases List.mem_cons.mp hx with rfl | hx2
        · exact hccfg
        · exact hsub1 x hx2

theorem rev_pass_of_closed (cfg : Config) (input : List Nat)
    (st : List Nat × Bool)
    (h : ∀ c ∈ cfg.containers, ∀ l ∈ cfg.links c,
      (l ∈ input ∨ l ∈ st.1) → c ∈ st.1) :
    rev_pass cfg input st = st := by
  show cfg.containers.foldl _ st = st
  have : ∀ (cs : List Nat), (∀ c ∈ cs, c ∈ cfg.containers) →
      cs.foldl (fun st c => (cfg.links c).foldl (rev_link_step input c) st)
        st = st := by
    intro cs
    induction cs with
    | nil => intro _; rfl
    | cons c cs ih =>
      intro hcs
      rw [List.foldl_cons]
      rcases st with ⟨rev, ch⟩
      rw [rev_fold_of_closed input c (cfg.links c) rev ch
        (h c (hcs c (List.mem_cons_self c cs)))]
      exact ih (fun d hd => hcs d (List.mem_cons_of_mem c hd))
  exact this cfg.containers (fun c hc => hc)

/-- Shape of the evolving reverse-dependency working set. -/
def RGood (cfg : Config) (input rev : List Nat) : Prop :=
  ∃ t, rev = input.dedup ++ t ∧ t.Nodup ∧ (∀ x ∈ t, x ∉ input.dedup) ∧
    (∀ x ∈ t, x ∈ cfg.containers)

theorem rgood_length_le {cfg : Config} {input rev : List Nat}
    (h : RGood cfg input rev) :
    rev.length ≤ input.dedup.length + cfg.containers.length := by
  rcases h with ⟨t, e, nd, _, hsub⟩
  have := (nd.subperm hsub).length_le
  rw [e, List.length_append]
  omega

theorem rev_loop_succ_eq (cfg : Config) (input : List Nat) (fuel : Nat)
    (rev : List Nat) :
    rev_loop cfg input (fuel + 1) rev =
      (if (rev_pass cfg input (rev, false)).2 then
        rev_loop cfg input fuel (rev_pass cfg input (rev, false)).1
      else (rev_pass cfg input (rev, false)).1) := rfl

theorem rev_loop_spec (cfg : Config) (input : List Nat) :
    ∀ (fuel : Nat) (rev : List Nat),
      RGood cfg input rev →
      input.dedup.length + cfg.containers.length + 1 ≤ fuel + rev.length →
      ∃ rev2, rev_loop cfg input fuel rev = rev2 ∧ RGood cfg input rev2 ∧
        rev <+: rev2 ∧
        rev_pass cfg input (rev2, false) = (rev2, false) := by
  intro fuel
  induction fuel with
  | zero =>
    intro rev hG hfuel
    exfalso
    have := rgood_length_le hG
    omega
  | succ fuel ih =>
    intro rev hG hfuel
    rw [rev_loop_succ_eq]
    by_cases hch : (rev_pass cfg input (rev, false)).2
    · rw [if_pos hch]
      have hgrow : rev.length < (rev_pass cfg input (rev, false)).1.length :=
        rev_pass_grow cfg input cfg.containers (rev, false) rfl hch
      rcases rev_pass_shape cfg input cfg.containers (rev, false)
        (fun c hc => hc) with ⟨t, e1, nd1, nm1, hsub1⟩
      have e1o : (rev_pass cfg input (rev, false)).1 = rev ++ t := e1
      have hG2 : RGood cfg input (rev_pass cfg input (rev, false)).1 := by
        rcases hG with ⟨t0, e0, nd0, nm0, hsub0⟩
        refine ⟨t0 ++ t, ?_, ?_, ?_, ?_⟩
        · rw [e1o, e0, List.append_assoc]
        · rw [List.nodup_append]
          refine ⟨nd0, nd1, ?_⟩
          intro x hx0 hxt
          exact nm1 x hxt (by rw [e0]; exact List.mem_append_right _ hx0)
        · intro x hx
          rcases List.mem_append.mp hx with h1 | h1
          · exact nm0 x h1
          · intro hxi
            exact nm1 x h1 (by rw [e0]; exact List.mem_append_left t0 hxi)
        · intro x hx
          rcases List.mem_append.mp hx with h1 | h1
          · exact hsub0 x h1
          · exact hsub1 x h1
      rcases ih (rev_pass cfg input (rev, false)).1 hG2 (by omega) with
        ⟨rev2, hrun, hG3, hpre, hfix⟩
      exact ⟨rev2, hrun, hG3, List.IsPrefix.trans ⟨t, e1o.symm⟩ hpre, hfix⟩
    · rw [if_neg hch]
      have hchf : (rev_pass cfg input (rev, false)).2 = false := by
        cases hv : (rev_pass cfg input (rev, false)).2
        · rfl
        · exact absurd hv hch
      rcases rev_pass_unchanged cfg input cfg.containers (rev, false) hchf with
        ⟨hfix, -⟩
      refine ⟨rev, ?_, hG, List.prefix_refl rev, ?_⟩
      · show (rev_pass cfg input (rev, false)).1 = rev
        rw [show rev_pass cfg input (rev, false) = (rev, false) from hfix]
      · exact hfix

theorem rev_loop_of_closed (cfg : Config) (input rev : List Nat) (fuel : Nat)
    (h : ∀ c ∈ cfg.containers, ∀ l ∈ cfg.links c,
      (l ∈ input ∨ l ∈ rev) → c ∈ rev)
    (hfuel : 1 ≤ fuel) : rev_loop cfg input fuel rev = rev := by
  rcases fuel with _ | f
  · omega
  · rw [rev_loop_succ_eq]
    rw [rev_pass_of_closed cfg input (rev, false) h]
    simp

theorem obd_eq_aR_true (cfg : Config) (inp : List Nat) (aD : Bool)
    (fuel : Nat) :
    ordered_by_dependency cfg inp aD true fuel =
      order_loop cfg aD fuel (inp ++ rev_loop cfg inp fuel inp.dedup) [] := rfl

theorem obd_eq_aR_false (cfg : Config) (inp : List Nat) (aD : Bool)
    (fuel : Nat) :
    ordered_by_dependency cfg inp aD false fuel =
      order_loop cfg aD fuel inp [] := rfl

theorem topo_nil (cfg : Config) (aD : Bool) (C : List Nat) :
    TopoInv cfg aD C [] := by
  intro i hi
  exact absurd hi (Nat.not_lt_zero i)

theorem nodup_closure_of_topo (cfg : Config) (C2 L : List Nat)
    (htopo : TopoInv cfg true C2 L) :
    ∀ c ∈ L, ∀ l ∈ cfg.links c, l ∈ L := by
  intro c hc l hl
  have hj : L.indexOf c < L.length := List.indexOf_lt_length.mpr hc
  have hget : L.get ⟨L.indexOf c, hj⟩ = c := List.indexOf_get hj
  have := htopo (L.indexOf c) hj l (by rw [hget]; exact hl) (Or.inl rfl)
  exact List.take_subset _ _ this

/--
Characterisation of one `ordered_by_dependency` run on a well-formed
configuration with enough fuel: the result is duplicate-free, has the
same members as the final working list, contains the requested
containers, is topologically sorted, is closed under links when
`add_dependencies` is set, and (for a pure reverse-dependency run) is
closed under reverse dependencies.
-/
theorem obd_spec (cfg : Config) (inp : List Nat) (aD aR : Bool) (fuel : Nat)
    (hcheck : check_config cfg cfg.containers = true)
    (hinp : ∀ x ∈ inp, x ∈ cfg.containers)
    (hfuel : 2 * cfg.containers.length + 2 ≤ fuel) :
    ∃ L C2,
      ordered_by_dependency cfg inp aD aR fuel = L ∧
      L.Nodup ∧
      (∀ x ∈ L, x ∈ C2) ∧ (∀ x ∈ C2, x ∈ L) ∧
      (∀ x ∈ C2, x ∈ cfg.containers) ∧
      (∀ x ∈ inp, x ∈ L) ∧
      TopoInv cfg aD C2 L ∧
      (aD = true → ∀ c ∈ L, ∀ l ∈ cfg.links c, l ∈ L) ∧
      (aR = true → aD = false →
        ∀ c ∈ cfg.containers, ∀ l ∈ cfg.links c, l ∈ L → c ∈ L) := by
  have hlinks : ∀ c ∈ cfg.containers, ∀ l ∈ cfg.links c,
      l ∈ cfg.containers := by
    intro c hc l hl
    exact (wf_rank cfg hcheck c hc l hl).1
  have hrank := wf_rank cfg hcheck
  rcases aR with _ | _
  · rcases order_loop_spec cfg aD inp hlinks fuel inp [] ⟨[], by simp⟩
      List.nodup_nil (fun x hx => absurd hx (List.not_mem_nil x)) hinp
      (topo_nil cfg aD inp) (by simp; omega) with
      ⟨C2, O2, hrun, hCG, hnd, hOC, hCcfg, htopo, hpre, -, hfix, -⟩
    have hcomplete := fixpoint_complete cfg aD C2 O2 hrank hCcfg hfix
    refine ⟨O2, C2, ?_, hnd, hOC, hcomplete, hCcfg, ?_, htopo, ?_, ?_⟩
    · rw [obd_eq_aR_false]
      exact hrun
    · intro x hx
      exact hcomplete x (hpre.subset hx)
    · intro haD
      subst haD
      exact nodup_closure_of_topo cfg C2 O2 htopo
    · intro habs
      cases habs
  · rcases rev_loop_spec cfg inp fuel inp.dedup ⟨[], by simp⟩
      (by
        have hd : inp.dedup.Nodup := inp.nodup_dedup
        have hdc : ∀ x ∈ inp.dedup, x ∈ cfg.containers :=
          fun x hx => hinp x (List.mem_dedup.mp hx)
        omega) with ⟨rev2, hrevrun, hRG, hrevpre, hrevfix⟩
    have hclosure := rev_pass_closure cfg inp rev2 hrevfix
    have hC0cfg : ∀ x ∈ inp ++ rev2, x ∈ cfg.containers := by
      intro x hx
      rcases List.mem_append.mp hx with h1 | h1
      · exact hinp x h1
      · rcases hRG with ⟨t, e, -, -, hsub⟩
        rw [e] at h1
        rcases List.mem_append.mp h1 with h2 | h2
        · exact hinp x (List.mem_dedup.mp h2)
        · exact hsub x h2
    rcases order_loop_spec cfg aD (inp ++ rev2) hlinks fuel (inp ++ rev2) []
      ⟨[], by simp⟩ List.nodup_nil (fun x hx => absurd hx (List.not_mem_nil x))
      hC0cfg (topo_nil cfg aD (inp ++ rev2)) (by simp; omega) with
      ⟨C2, O2, hrun, hCG, hnd, hOC, hCcfg, htopo, hpre, -, hfix, hconst⟩
    have hcomplete := fixpoint_complete cfg aD C2 O2 hrank hCcfg hfix
    refine ⟨O2, C2, ?_, hnd, hOC, hcomplete, hCcfg, ?_, htopo, ?_, ?_⟩
    · rw [obd_eq_aR_true, hrevrun]
      exact hrun
    · intro x hx
      exact hcomplete x (hpre.subset (List.mem_append_left rev2 hx))
    · intro haD
      subst haD
      exact nodup_closure_of_topo cfg C2 O2 htopo
    · intro _ haD c hc l hl hlL
      have hC2eq : C2 = inp ++ rev2 := hconst haD
      have hlC0 : l ∈ inp ++ rev2 := by
        rw [← hC2eq]
        exact hOC l hlL
      have hcrev : c ∈ rev2 := by
        apply hclosure c hc l hl
        rcases List.mem_append.mp hlC0 with h1 | h1
        · exact Or.inl h1
        · exact Or.inr h1
      apply hcomplete
      rw [hC2eq]
      exact List.mem_append_right inp hcrev

/--
C9 counterexample: with both `add_dependencies` and
`add_reverse_dependencies` set, `ordered_by_dependency` is not
idempotent. In the demo configuration (1 and 2 both link to 0), ordering
the set containing just container 1 yields the list with 0 and 1; re-running on that
output also pulls in container 2 (a reverse dependency of the
dependency 0 added by the first run), so the result changes.
-/
theorem claim9_counterexample :
    ordered_by_dependency resolver_demo_config
        (ordered_by_dependency resolver_demo_config [1] true true 8)
        true true 8 ≠
      ordered_by_dependency resolver_demo_config [1] true true 8 := by
  decide

/--
C9 amended: on a well-formed configuration and for requested containers
drawn from it, `ordered_by_dependency` is idempotent for every flag
combination except `add_dependencies` and `add_reverse_dependencies`
both set (where a second run can add reverse dependencies of the
dependencies added by the first run — see the counterexample). Fuel
models the Python while loops; any fuel past the stabilisation bound
gives the same answer.
-/
theorem claim9_amended_idempotent (cfg : Config) (inp : List Nat)
    (aD aR : Bool) (fuel fuel2 : Nat)
    (hcheck : check_config cfg cfg.containers = true)
    (hinp : ∀ x ∈ inp, x ∈ cfg.containers)
    (hflags : ¬ (aD = true ∧ aR = true))
    (hfuel : 2 * cfg.containers.length + 2 ≤ fuel)
    (hfuel2 : 2 * cfg.containers.length + 2 ≤ fuel2) :
    ordered_by_dependency cfg (ordered_by_dependency cfg inp aD aR fuel)
        aD aR fuel2 =
      ordered_by_dependency cfg inp aD aR fuel := by
  rcases obd_spec cfg inp aD aR fuel hcheck hinp hfuel with
    ⟨L, C2, heq1, hnd, hLC, hCL, hCcfg, hinpL, htopo, hcloseD, hcloseR⟩
  rw [heq1]
  have hfuel2b : 2 ≤ fuel2 := by omega
  rcases aR with _ | _
  · rw [obd_eq_aR_false]
    have hT : ∀ i (hi : i < L.length), ∀ l ∈ cfg.links (L.get ⟨i, hi⟩),
        l ∈ L ++ [] → l ∈ L.take i := by
      intro i hi l hl hlm
      apply htopo i hi l hl
      by_cases haD : aD = true
      · exact Or.inl haD
      · rw [List.append_nil] at hlm
        exact Or.inr (hLC l hlm)
    have hclosed : aD = true → ∀ c ∈ L, ∀ l ∈ cfg.links c, l ∈ L ++ [] := by
      intro haD c hc l hl
      rw [List.append_nil]
      exact hcloseD haD c hc l hl
    have := order_loop_self cfg aD L [] hnd hT hclosed
      (fun x hx => absurd hx (List.not_mem_nil x)) fuel2 hfuel2b
    rwa [List.append_nil] at this
  · have haD : aD = false := by
      rcases aD with _ | _
      · rfl
      · exact absurd ⟨rfl, rfl⟩ hflags
    subst haD
    rw [obd_eq_aR_true]
    have hLdedup : L.dedup = L := hnd.dedup
    have hrevid : rev_loop cfg L fuel2 L.dedup = L := by
      rw [hLdedup]
      apply rev_loop_of_closed cfg L L fuel2
      · intro c hc l hl hcond
        have hlL : l ∈ L := by
          rcases hcond with h1 | h1 <;> exact h1
        exact hcloseR rfl rfl c hc l hl hlL
      · omega
    rw [hrevid]
    have hT : ∀ i (hi : i < L.length), ∀ l ∈ cfg.links (L.get ⟨i, hi⟩),
        l ∈ L ++ L → l ∈ L.take i := by
      intro i hi l hl hlm
      apply htopo i hi l hl
      rcases List.mem_append.mp hlm with h1 | h1 <;>
        exact Or.inr (hLC l h1)
    have hclosed : (false : Bool) = true →
        ∀ c ∈ L, ∀ l ∈ cfg.links c, l ∈ L ++ L := by
      intro habs
      cases habs
    exact order_loop_self cfg false L L hnd hT hclosed
      (fun x hx => hx) fuel2 hfuel2b

/-- Witness for the amended C9: idempotence at a concrete input with `add_dependencies` only. -/
theorem claim9_witness :
    (check_config resolver_demo_config resolver_demo_config.containers =
      true) ∧
    (∀ x ∈ [2], x ∈ resolver_demo_config.containers) ∧
    (¬ ((true : Bool) = true ∧ (false : Bool) = true)) ∧
    (2 * resolver_demo_config.containers.length + 2 ≤ 8) ∧
    (ordered_by_dependency resolver_demo_config
        (ordered_by_dependency resolver_demo_config [2] true false 8)
        true false 8 =
      ordered_by_dependency resolver_demo_config [2] true false 8) :=
  ⟨by decide, by decide, by simp, by decide,
   claim9_amended_idempotent resolver_demo_config [2] true false 8 8
     (by decide) (by decide) (by simp) (by decide) (by decide)⟩

end Kastenwesen
